import Mathlib

/-!
Shallow embedding of the NIST SP 800-22 statistical test suite (Rust sources
under src/): the shared bit-string validator and the eight test engines
(frequency monobit, frequency within a block, runs, longest run of ones,
binary matrix rank, DFT spectral, non-overlapping template matching,
cumulative sums).

Numeric modelling: the Rust code computes statistics in `f64`; here every
discrete statistic (counts, ranks, run lengths, chi-square numerators) is
computed exactly over `ℚ`/`ℤ`/`ℕ`, and the final p-value layer is generic
over a `LinearOrderedField K` (instantiated with `ℝ` in the theorems).
The external special functions consumed from the `statrs` crate
(complementary error function `erfc`, regularized upper incomplete gamma
function `igamc`, standard normal CDF `phi`) and the square root / log /
trigonometric functions are passed as explicit function parameters, since the
suite only composes them; theorems constrain them by the analytic properties
the library guarantees.
-/

namespace NistSuite

/-! ## Constants (src/constants.rs) -/

def P_VALUE_THRESHOLD : ℚ := 1/100

def RECOMMENDED_SIZE : ℕ := 100

def RECOMMENDED_SIZE_DFT : ℕ := 1000

def MIN_LENGTH : ℕ := 128

def MID_LENGTH : ℕ := 6272

def MAX_LENGTH : ℕ := 750000

def MIN_SIZE_M : ℕ := 8

def MID_SIZE_M : ℕ := 128

def MAX_SIZE_M : ℕ := 10000

def MIN_SIZE_N : ℕ := 16

def MID_SIZE_N : ℕ := 49

def MAX_SIZE_N : ℕ := 75

def MIN_THRESHOLDS : ℤ × ℤ := (1, 4)

def MID_THRESHOLDS : ℤ × ℤ := (4, 9)

def MAX_THRESHOLDS : ℤ × ℤ := (10, 16)

/-- `[0.21484375, 0.3671875, 0.23046875, 0.1875]` (these decimals are dyadic,
so the `f64` constants are exact). -/
def MIN_PI_VALUES : List ℚ := [21484375/100000000, 3671875/10000000, 23046875/100000000, 1875/10000]

def MID_PI_VALUES : List ℚ :=
  [1174035788/10000000000, 242955959/1000000000, 249363483/1000000000,
   17517706/100000000, 102701071/1000000000, 112398847/1000000000]

def MAX_PI_VALUES : List ℚ :=
  [882/10000, 2092/10000, 2483/10000, 1933/10000, 1208/10000, 675/10000, 727/10000]

def RECOMMENDED_SIZE_MATRIX_TEST : ℕ := 38912

def MATRIX_ROWS_M : ℕ := 32

def MATRIX_COLUMNS_Q : ℕ := 32

/-- `[0.2888, 0.5776, 0.1336]` -/
def APPROXIMATIONS : List ℚ := [2888/10000, 5776/10000, 1336/10000]

/-- `LOG_ARG = 1.0 / 0.05` -/
def LOG_ARG : ℚ := 20

/-- `N_0_CONSTANT = 0.95 * 0.5` -/
def N_0_CONSTANT : ℚ := 19/40

/-- `NORMALIZED_DIFF_CONSTANT = 0.95 * 0.05 * 0.25` -/
def NORMALIZED_DIFF_CONSTANT : ℚ := 19/1600

def TEMPLATE_LEN : ℕ × ℕ := (2, 21)

/-! ## The shared validator (src/utils.rs, `evaluate_bit_string`)

The `recommended_size` argument only drives a log warning in the source; it
never affects the returned value, and is kept here to mirror the signature. -/

/-- `utils::evaluate_bit_string`: fails iff the string is empty or has a
character other than `'0'`/`'1'`; otherwise returns the length. -/
def evaluate_bit_string (bit_string : List Char) (recommended_size : ℕ) :
    Except String ℕ :=
  if bit_string.isEmpty || bit_string.any (fun c => c != '0' && c != '1') then
    .error "Bit string is either empty or contains invalid character(s)"
  else
    .ok bit_string.length

/-- A bit string the validator accepts: non-empty, all characters 0/1. -/
def ValidBits (s : List Char) : Prop :=
  s ≠ [] ∧ ∀ c ∈ s, c = '0' ∨ c = '1'

instance : DecidablePred ValidBits := fun _ => by
  unfold ValidBits; infer_instance

/-- Number of `'1'` characters. -/
def count_ones (s : List Char) : ℕ := (s.filter (fun c => c == '1')).length

/-- Number of `'0'` characters. -/
def count_zeros (s : List Char) : ℕ := (s.filter (fun c => c == '0')).length

/-! ## Frequency monobit (src/frequency_monobit.rs) -/

/-- `frequency_monobit::compute_partial_sum`: `'1'` adds 1, anything else
subtracts 1. -/
def compute_partial_sum (bit_string : List Char) : ℤ :=
  bit_string.foldl (fun acc bit => if bit = '1' then acc + 1 else acc - 1) 0

section Engines

variable {K : Type} [LinearOrderedField K]

/-- `frequency_monobit::perform_test`. `erfc` and `sqrtK` stand for
`statrs::function::erf::erfc` and `f64::sqrt` (the code divides by
`std::f64::consts::SQRT_2`, modelled as `sqrtK 2`). -/
def frequency_monobit_perform_test (erfc sqrtK : K → K) (bit_string : List Char) :
    Except String K := do
  let length ← evaluate_bit_string bit_string RECOMMENDED_SIZE
  let partialSum := compute_partial_sum bit_string
  let observed : K := (partialSum.natAbs : K) / sqrtK (length : K)
  pure (erfc (observed / sqrtK 2))

end Engines

/-! ## Frequency within a block (src/frequency_block.rs) -/

/-- `frequency_block::evaluate_block_size`: `M` must satisfy
`length/100 < M < length` (integer division) and `N = length / M < 100`. -/
def evaluate_block_size (length block_size : ℕ) : Except String ℕ :=
  if block_size ≥ length ∨ block_size ≤ length / RECOMMENDED_SIZE then
    .error "Block size M out of range"
  else
    let number_of_blocks := length / block_size
    if number_of_blocks ≥ RECOMMENDED_SIZE then
      .error "Number of blocks exceeds 100"
    else
      .ok number_of_blocks

/-- `frequency_block::compute_pi_i`: proportion of ones in each of the `N`
consecutive `M`-bit blocks (the code slices `bit_string[index..index+M]`,
stepping `index` by `M`). -/
def compute_pi_i (bit_string : List Char) (number_of_blocks block_size : ℕ) :
    List ℚ :=
  (List.range number_of_blocks).map
    (fun i => (count_ones ((bit_string.drop (i * block_size)).take block_size) : ℚ)
      / (block_size : ℚ))

/-- `frequency_block::compute_chi_square`: `4 · M · Σ (π_i − 0.5)²`. -/
def frequency_block_chi_square (block_size : ℕ) (pi_i : List ℚ) : ℚ :=
  4 * (block_size : ℚ) * (pi_i.foldl (fun acc p => acc + (p - 1/2)^2) 0)

section Engines

variable {K : Type} [LinearOrderedField K]

/-- `frequency_block::perform_test`. `igamc` stands for
`statrs::function::gamma::gamma_ur` (regularized upper incomplete gamma);
a zero chi-square short-circuits to p-value 1 without consulting `igamc`. -/
def frequency_block_perform_test (igamc : K → K → K) (bit_string : List Char)
    (block_size : ℕ) : Except String K := do
  let length ← evaluate_bit_string bit_string RECOMMENDED_SIZE
  let number_of_blocks ← evaluate_block_size length block_size
  let chi_square := frequency_block_chi_square block_size
    (compute_pi_i bit_string number_of_blocks block_size)
  if chi_square = 0 then
    pure 1
  else
    pure (igamc ((number_of_blocks : K) * (1/2)) ((chi_square : K) * (1/2)))

end Engines

/-! ## Runs (src/runs.rs) -/

/-- `runs::compute_pre_test_proportion`: `#ones / length` (exact here, `f64`
in the source). -/
def runs_pre_test_proportion (bit_string : List Char) : ℚ :=
  (count_ones bit_string : ℚ) / (bit_string.length : ℚ)

/-- The loop body of `runs::compute_v_n_observed`: number of adjacent unequal
pairs; the function returns this plus 1. -/
def count_bit_changes : List Char → ℕ
  | a :: b :: rest => (if a ≠ b then 1 else 0) + count_bit_changes (b :: rest)
  | _ => 0

/-- `runs::compute_v_n_observed`: starts the counter at 1 and adds 1 per
adjacent unequal pair. -/
def compute_v_n_observed (bit_string : List Char) : ℕ :=
  1 + count_bit_changes bit_string

section Engines

variable {K : Type} [LinearOrderedField K]

/-- `runs::evaluate_requirement` inlined into `runs::perform_test`: bail out
when `|π − 0.5| ≥ 2/√length`; otherwise
`p = erfc(|V_obs − 2·n·π(1−π)| / (2·√(2n)·π(1−π)))`. -/
def runs_perform_test (erfc sqrtK : K → K) (bit_string : List Char) :
    Except String K := do
  let length ← evaluate_bit_string bit_string RECOMMENDED_SIZE
  let pre_test_proportion := runs_pre_test_proportion bit_string
  let tau : K := 2 / sqrtK (length : K)
  let requirement : K := |(pre_test_proportion : K) - 1/2|
  if tau ≤ requirement then
    .error "Runs Test is not applicable"
  else
    let v_n_observed := compute_v_n_observed bit_string
    let c : K := (pre_test_proportion : K) * (1 - (pre_test_proportion : K))
    let numerator : K := |(v_n_observed : K) - 2 * (length : K) * c|
    let denominator : K := 2 * sqrtK (2 * (length : K)) * c
    pure (erfc (numerator / denominator))

end Engines

/-! ## Cumulative sums (src/cumulative_sums.rs) -/

/-- `customtypes::Mode` for the cumulative sums test. -/
inductive Mode where
  | forward : Mode
  | backward : Mode
deriving DecidableEq

/-- Truncation toward zero, as Rust's `as i64` cast of an `f64` value (the
source computes the summation bounds in `f64`; the quotients involved are
modelled exactly in `ℚ`). -/
def qtrunc (q : ℚ) : ℤ := if 0 ≤ q then ⌊q⌋ else ⌈q⌉

/-- The `max_sum_z` loop of `cumulative_sums::perform_test`: walk the
±1 partial sums and track the maximum absolute excursion. -/
def cusum_max_sum_z (bits : List Char) : ℤ :=
  (bits.foldl
    (fun (p : ℤ × ℤ) bit =>
      let current := if bit = '1' then p.1 + 1 else p.1 - 1
      (current, max p.2 |current|))
    (0, 0)).2

/-- The three summation bounds of `cumulative_sums::perform_test`:
`((n/z − 1)·0.25) as i64`, `((−n/z + 1)·0.25) as i64`,
`((−n/z − 3)·0.25) as i64` (upper, lower₁, lower₂). -/
def cusum_limits (length : ℕ) (z : ℤ) : ℤ × ℤ × ℤ :=
  (qtrunc (((length : ℚ) / (z : ℚ) - 1) * (1/4)),
   qtrunc ((-(1:ℚ) * ((length : ℚ) / (z : ℚ)) + 1) * (1/4)),
   qtrunc ((-(1:ℚ) * ((length : ℚ) / (z : ℚ)) - 3) * (1/4)))

section Engines

variable {K : Type} [LinearOrderedField K]

/-- `cumulative_sums::perform_test`. `phi` stands for the standard normal CDF
(`statrs::distribution::Normal::new(0,1).cdf`). Backward mode reverses the
bit string; the p-value is `1 − sum₁ + sum₂` over the two truncated series. -/
def cumulative_sums_perform_test (phi sqrtK : K → K) (bit_string : List Char)
    (mode : Mode) : Except String K := do
  let length ← evaluate_bit_string bit_string RECOMMENDED_SIZE
  let new_bit_string := match mode with
    | .forward => bit_string
    | .backward => bit_string.reverse
  let max_sum_z := cusum_max_sum_z new_bit_string
  let (upper_limit, lower_limit_1, lower_limit_2) := cusum_limits length max_sum_z
  let denominator : K := sqrtK (length : K)
  let sum_1 : K := ∑ k in Finset.Icc lower_limit_1 upper_limit,
    (phi ((4 * (k : K) + 1) * (max_sum_z : K) / denominator)
      - phi ((4 * (k : K) - 1) * (max_sum_z : K) / denominator))
  let sum_2 : K := ∑ k in Finset.Icc lower_limit_2 upper_limit,
    (phi ((4 * (k : K) + 3) * (max_sum_z : K) / denominator)
      - phi ((4 * (k : K) + 1) * (max_sum_z : K) / denominator))
  pure (1 - sum_1 + sum_2)

end Engines

/-! ## Longest run of ones in a block (src/longest_run.rs)

`BTreeMap<i32, i32>` is modelled as an association list strictly sorted by
key; `btree_add` is `*m.entry(k).or_insert(0) += v` and `btree_or_insert` is
`m.entry(k).or_insert(d)`. Iteration order of the map is its list order. -/

/-- `customtypes::LongestRunConfig`. -/
structure LongestRunConfig where
  block_size_m : ℕ
  number_of_blocks : ℕ
  thresholds : ℤ × ℤ
  pi_values : List ℚ
deriving DecidableEq

/-- Add `v` to the entry at `k` of a sorted association list (missing entries
start at 0), keeping it sorted. -/
def btree_add (k : ℤ) (v : ℤ) : List (ℤ × ℤ) → List (ℤ × ℤ)
  | [] => [(k, v)]
  | (k', v') :: rest =>
    if k < k' then (k, v) :: (k', v') :: rest
    else if k = k' then (k', v' + v) :: rest
    else (k', v') :: btree_add k v rest

/-- Insert `(k, d)` only when `k` is absent, keeping the list sorted. -/
def btree_or_insert (k : ℤ) (d : ℤ) : List (ℤ × ℤ) → List (ℤ × ℤ)
  | [] => [(k, d)]
  | (k', v') :: rest =>
    if k < k' then (k, d) :: (k', v') :: rest
    else if k = k' then (k', v') :: rest
    else (k', v') :: btree_or_insert k d rest

/-- `longest_run::get_longest_run_config`: fixed `(M, N, thresholds, π)`
tuples per length regime; lengths below 128 are an error. -/
def get_longest_run_config (length : ℕ) : Except String LongestRunConfig :=
  if length < MIN_LENGTH then
    .error "Bit string needs at least 128 bits"
  else if MIN_LENGTH ≤ length ∧ length < MID_LENGTH then
    .ok ⟨MIN_SIZE_M, MIN_SIZE_N, MIN_THRESHOLDS, MIN_PI_VALUES⟩
  else if MID_LENGTH ≤ length ∧ length < MAX_LENGTH then
    .ok ⟨MID_SIZE_M, MID_SIZE_N, MID_THRESHOLDS, MID_PI_VALUES⟩
  else
    .ok ⟨MAX_SIZE_M, MAX_SIZE_N, MAX_THRESHOLDS, MAX_PI_VALUES⟩

/-- `longest_run::count_max_consecutive_ones`. -/
def count_max_consecutive_ones (block : List Char) : ℤ :=
  (block.foldl
    (fun (p : ℤ × ℤ) bit =>
      if bit = '1' then (max p.1 (p.2 + 1), p.2 + 1) else (p.1, 0))
    (0, 0)).1

/-- The per-block counting loop of `longest_run::perform_test`: a `BTreeMap`
from observed longest-run value to its count over the `N` blocks. -/
def longest_run_counts (bit_string : List Char) (cfg : LongestRunConfig) :
    List (ℤ × ℤ) :=
  (List.range cfg.number_of_blocks).foldl
    (fun m block_num =>
      btree_add
        (count_max_consecutive_ones
          ((bit_string.drop (block_num * cfg.block_size_m)).take cfg.block_size_m))
        1 m)
    []

/-- `longest_run::calculate_vi_values`: merge counts at the thresholds, then
insert a zero entry for every threshold value that has no count. -/
def calculate_vi_values (run_counts : List (ℤ × ℤ)) (thresholds : ℤ × ℤ) :
    List (ℤ × ℤ) :=
  let merged := run_counts.foldl
    (fun m kv =>
      if kv.1 ≤ thresholds.1 then btree_add thresholds.1 kv.2 m
      else if kv.1 ≥ thresholds.2 then btree_add thresholds.2 kv.2 m
      else btree_add kv.1 kv.2 m)
    []
  (List.range (thresholds.2 - thresholds.1 + 1).toNat).foldl
    (fun m (i : ℕ) => btree_or_insert (thresholds.1 + (i : ℤ)) 0 m)
    merged

/-- The chi-square loop of `longest_run::perform_test`: the `v_i` map zipped
against the π table in iteration order. -/
def longest_run_chi_square (vi_counts : List (ℤ × ℤ)) (number_of_blocks : ℕ)
    (pi_values : List ℚ) : ℚ :=
  (vi_counts.zip pi_values).foldl
    (fun acc x =>
      acc + ((x.1.2 : ℚ) - (number_of_blocks : ℚ) * x.2)^2
        / ((number_of_blocks : ℚ) * x.2))
    0

/-- Exact chi-square of `longest_run::perform_test` on a bit string (given
its regime configuration). -/
def longest_run_chi_square_of (bit_string : List Char) (cfg : LongestRunConfig) : ℚ :=
  longest_run_chi_square
    (calculate_vi_values (longest_run_counts bit_string cfg) cfg.thresholds)
    cfg.number_of_blocks cfg.pi_values

section Engines

variable {K : Type} [LinearOrderedField K]

/-- `longest_run::perform_test`:
`p = igamc((len(π) − 1)/2, chi²/2)`. -/
def longest_run_perform_test (igamc : K → K → K) (bit_string : List Char) :
    Except String K := do
  let length ← evaluate_bit_string bit_string MIN_LENGTH
  let cfg ← get_longest_run_config length
  let chi_square := longest_run_chi_square_of bit_string cfg
  pure (igamc (((cfg.pi_values.length : K) - 1) * (1/2)) ((chi_square : K) * (1/2)))

end Engines

/-! ## Binary matrix rank (src/binary_matrix_rank.rs)

Matrices of `rug::Integer` are modelled as `List (List ℤ)` with the
dimensions passed alongside (as `nalgebra` stores them); `rug` division of
integers truncates toward zero, i.e. `Int.tdiv`. -/

/-- Entry `(i, j)` of a list-of-rows matrix (0 outside). -/
def mentry (m : List (List ℤ)) (i j : ℕ) : ℤ := (m.getD i []).getD j 0

/-- The pivot search of `binary_matrix_rank::compute_rank`: the row below
`row` (inclusive) whose entry in `col` has strictly largest absolute value,
scanning `row+1..nrows` and keeping the earlier row on ties. -/
def find_pivot_row (m : List (List ℤ)) (row col : ℕ) : ℕ :=
  ((List.range m.length).drop (row + 1)).foldl
    (fun max_row i =>
      if (mentry m i col).natAbs > (mentry m max_row col).natAbs then i else max_row)
    row

/-- Swap rows `i` and `j`. -/
def swap_rows (m : List (List ℤ)) (i j : ℕ) : List (List ℤ) :=
  let ri := m.getD i []
  let rj := m.getD j []
  (m.set i rj).set j ri

/-- One row elimination of `compute_rank`: for `j` in `col..ncols`,
`target[j] −= factor · pivot[j]` with `factor = target[col] / pivot[col]`
(truncating integer division, as `rug::Integer` division). -/
def eliminate_row (pivot target : List ℤ) (col : ℕ) : List ℤ :=
  let factor := Int.tdiv (target.getD col 0) (pivot.getD col 0)
  target.enum.map (fun ji => if col ≤ ji.1 then ji.2 - factor * pivot.getD ji.1 0 else ji.2)

/-- Eliminate every row below `row` in column `col`. -/
def eliminate_below (m : List (List ℤ)) (row col : ℕ) : List (List ℤ) :=
  let pivot := m.getD row []
  m.enum.map (fun ir => if row < ir.1 then eliminate_row pivot ir.2 col else ir.2)

/-- The `while` loop of `compute_rank`; `fuel` bounds the iterations (each
iteration advances `col`, so `ncols` iterations suffice). -/
def compute_rank_go (nrows ncols : ℕ) :
    ℕ → List (List ℤ) → ℕ → ℕ → ℕ → ℕ
  | 0, _, _, _, rank => rank
  | fuel + 1, m, row, col, rank =>
    if row < nrows ∧ col < ncols then
      let max_row := find_pivot_row m row col
      if mentry m max_row col = 0 then
        compute_rank_go nrows ncols fuel m row (col + 1) rank
      else
        let m' := swap_rows m row max_row
        let m'' := eliminate_below m' row col
        compute_rank_go nrows ncols fuel m'' (row + 1) (col + 1) (rank + 1)
    else rank

/-- `binary_matrix_rank::compute_rank`: Gaussian elimination with partial
pivoting over exact integers, with truncating integer division in the
elimination factor. -/
def compute_rank (nrows ncols : ℕ) (m : List (List ℤ)) : ℕ :=
  compute_rank_go nrows ncols ncols m 0 0 0

/-- `binary_matrix_rank::construct_matrices`: chunk the bit string into
`rows·columns`-bit substrings (a trailing partial chunk is dropped) and fill
each matrix row-major, `'1' ↦ 1`, `'0' ↦ 0`. -/
def construct_matrices (bit_string : List Char) (rows columns : ℕ) :
    List (List (List ℤ)) :=
  ((bit_string.toChunks (rows * columns)).filter
      (fun chunk => chunk.length = rows * columns)).map
    (fun chunk => (chunk.toChunks columns).map
      (fun r => r.map (fun bit => if bit = '1' then (1 : ℤ) else 0)))

/-- `binary_matrix_rank::compute_fraction`: `((rank − a·N)²) / (a·N)`. -/
def compute_fraction (rank n_matrices : ℕ) (approximation : ℚ) : ℚ :=
  ((rank : ℚ) - approximation * (n_matrices : ℚ))^2
    / (approximation * (n_matrices : ℚ))

/-- The chi-square of `binary_matrix_rank::perform_test`: rank tallies
(`F_M`, `F_{M−1}`, remainder) against the three fixed approximations. -/
def binary_matrix_rank_chi_square (bit_string : List Char)
    (matrix_rows_m matrix_columns_q : ℕ) : ℚ :=
  let length := bit_string.length
  let n_matrices := length / (matrix_rows_m * matrix_columns_q)
  let ranks := (construct_matrices bit_string matrix_rows_m matrix_columns_q).map
    (compute_rank matrix_rows_m matrix_columns_q)
  let full_rank_m := (ranks.filter (fun r => r = matrix_rows_m)).length
  let full_rank_m_minus_one := (ranks.filter (fun r => r = matrix_rows_m - 1)).length
  let remaining_ranks := n_matrices - full_rank_m - full_rank_m_minus_one
  compute_fraction full_rank_m n_matrices (APPROXIMATIONS.getD 0 0)
    + compute_fraction full_rank_m_minus_one n_matrices (APPROXIMATIONS.getD 1 0)
    + compute_fraction remaining_ranks n_matrices (APPROXIMATIONS.getD 2 0)

section Engines

variable {K : Type} [LinearOrderedField K]

/-- `binary_matrix_rank::perform_test`: `p = exp(−chi²·0.5)`; `expK` stands
for `f64::exp`. -/
def binary_matrix_rank_perform_test (expK : K → K) (bit_string : List Char)
    (matrix_rows_m matrix_columns_q : ℕ) : Except String K := do
  let _length ← evaluate_bit_string bit_string RECOMMENDED_SIZE_MATRIX_TEST
  let chi_square := binary_matrix_rank_chi_square bit_string matrix_rows_m matrix_columns_q
  pure (expK (-(chi_square : K) * (1/2)))

end Engines

/-! ## DFT spectral (src/dft_spectral.rs)

`rustfft`'s forward FFT of the ±1 signal is the mathematical DFT
`X_k = Σ_j x_j · e^(−2πi·jk/n)`; `cosA q` and `sinA q` stand for
`cos(2π·q)` and `sin(2π·q)`, so bin `k` has real part
`Σ_j x_j · cos(2π·jk/n)` and imaginary part `−Σ_j x_j · sin(2π·jk/n)`. -/

section Engines

variable {K : Type} [LinearOrderedField K]

/-- Real part of frequency bin `k` of the DFT of the ±1 signal. -/
def dft_bin_re (cosA : ℚ → K) (bit_string : List Char) (k : ℕ) : K :=
  ∑ j in Finset.range bit_string.length,
    (if bit_string.getD j '0' = '1' then (1 : K) else -1)
      * cosA ((j * k : ℕ) / (bit_string.length : ℚ))

/-- Imaginary part of frequency bin `k` of the DFT of the ±1 signal. -/
def dft_bin_im (sinA : ℚ → K) (bit_string : List Char) (k : ℕ) : K :=
  -∑ j in Finset.range bit_string.length,
    (if bit_string.getD j '0' = '1' then (1 : K) else -1)
      * sinA ((j * k : ℕ) / (bit_string.length : ℚ))

/-- `value.norm()`: the modulus `√(a² + b²)` of frequency bin `k`. -/
def dft_modulus (sqrtK : K → K) (cosA sinA : ℚ → K) (bit_string : List Char)
    (k : ℕ) : K :=
  sqrtK ((dft_bin_re cosA bit_string k)^2 + (dft_bin_im sinA bit_string k)^2)

/-- `dft_spectral::perform_test`'s height threshold:
`(LOG_ARG.log10() * length).sqrt()` — note the source takes the **base-10**
logarithm of `1/0.05`; `lgK` stands for `f64::log10`. -/
def dft_height_threshold (sqrtK lgK : K → K) (length : ℕ) : K :=
  sqrtK (lgK (LOG_ARG : K) * (length : K))

/-- The `N₁` counting loop: how many of the first `length/2` bin moduli are
strictly below the threshold. -/
def dft_n1 (sqrtK : K → K) (cosA sinA : ℚ → K) (bit_string : List Char)
    (threshold : K) : ℕ :=
  ((List.range (bit_string.length / 2)).filter
    (fun k => dft_modulus sqrtK cosA sinA bit_string k < threshold)).length

/-- `dft_spectral::perform_test`. -/
def dft_spectral_perform_test (erfc sqrtK lgK : K → K) (cosA sinA : ℚ → K)
    (bit_string : List Char) : Except String K := do
  let length ← evaluate_bit_string bit_string RECOMMENDED_SIZE_DFT
  let height_threshold := dft_height_threshold sqrtK lgK length
  let n_0 : K := (N_0_CONSTANT : K) * (length : K)
  let n_1 := dft_n1 sqrtK cosA sinA bit_string height_threshold
  let normalized_diff : K :=
    ((n_1 : K) - n_0) / sqrtK ((length : K) * (NORMALIZED_DIFF_CONSTANT : K))
  pure (erfc (|normalized_diff| / sqrtK 2))

end Engines

/-! ## Non-overlapping template matching (src/non_overlapping_template.rs)

The template catalog is loaded from disk in the source (an external
collaborator); the engine here takes the list of templates as a parameter. -/

/-- `non_overlapping_template::evaluate_test_params`: template length in
`[2, 21]`, `N ≤ 100`, and block size `M = length / N` must exceed
`length / 100`. (With `N = 0` the source panics on division by zero, hence
never returns `Ok`; here `length / 0 = 0` falls into the error branch.) -/
def evaluate_test_params (bit_string_length template_len number_of_blocks : ℕ) :
    Except String ℕ :=
  if ¬(TEMPLATE_LEN.1 ≤ template_len ∧ template_len ≤ TEMPLATE_LEN.2) then
    .error "Template length out of range"
  else if number_of_blocks > RECOMMENDED_SIZE then
    .error "Number of blocks greater than recommended size"
  else
    let block_size := bit_string_length / number_of_blocks
    if block_size ≤ bit_string_length / 100 then
      .error "Block size too small"
    else
      .ok block_size

/-- `str::find`: position of the first occurrence of `needle` in `haystack`
(`some 0` for the empty needle, as in Rust). -/
def find_first_match : List Char → List Char → Option ℕ
  | hay, needle =>
    if needle.isPrefixOf hay then some 0
    else match hay with
      | [] => none
      | _ :: rest => (find_first_match rest needle).map (· + 1)

/-- The `while let Some(start)` search loop: count non-overlapping matches,
advancing past each full match; `fuel` bounds the iterations (each match
consumes at least one character once the template is non-empty). -/
def count_template_matches : ℕ → List Char → List Char → ℕ
  | 0, _, _ => 0
  | fuel + 1, hay, t =>
    match find_first_match hay t with
    | none => 0
    | some start => 1 + count_template_matches fuel (hay.drop (start + t.length)) t

/-- Per-block match counts of one template over the `N` blocks. -/
def non_overlapping_counts (bit_string : List Char)
    (block_size number_of_blocks : ℕ) (t : List Char) : List ℕ :=
  (List.range number_of_blocks).map
    (fun block =>
      count_template_matches (block_size + 1)
        ((bit_string.drop (block * block_size)).take block_size) t)

/-- `usize::wrapping_sub` (64-bit). -/
def wrapping_sub (a b : ℕ) : ℕ := if b ≤ a then a - b else 2^64 + a - b

/-- Theoretical mean `(M − m + 1) / 2^m` — computed with `wrapping_sub` as in
the source. -/
def non_overlapping_mean (block_size template_len : ℕ) : ℚ :=
  ((wrapping_sub block_size template_len + 1 : ℕ) : ℚ) / ((2^template_len : ℕ) : ℚ)

/-- Theoretical variance `M·(1/2^m − (2m−1)/2^(2m))`. -/
def non_overlapping_variance (block_size template_len : ℕ) : ℚ :=
  (block_size : ℚ) * (1/((2^template_len : ℕ) : ℚ)
    - (2 * (template_len : ℚ) - 1) / ((2^(2*template_len) : ℕ) : ℚ))

/-- Per-template chi-square: `Σ (count − mean)² / variance`. -/
def template_chi_square (counts : List ℕ) (mean variance : ℚ) : ℚ :=
  counts.foldl (fun acc (c : ℕ) => acc + ((c : ℚ) - mean)^2 / variance) 0

section Engines

variable {K : Type} [LinearOrderedField K]

/-- The per-template p-value of `non_overlapping_template::perform_test`:
1 if the chi-square is 0 (no `igamc` call), else `igamc(N/2, chi²/2)`. -/
def template_p_value (igamc : K → K → K) (number_of_blocks : ℕ) (chi_square : ℚ) : K :=
  if chi_square = 0 then 1
  else igamc ((number_of_blocks : K) * (1/2)) ((chi_square : K) * (1/2))

/-- `non_overlapping_template::perform_test`: rejects all-zeros/all-ones up
front; the result is the arithmetic mean of the per-template p-values. -/
def non_overlapping_template_perform_test (igamc : K → K → K)
    (bit_string : List Char) (template_len number_of_blocks : ℕ)
    (templates : List (List Char)) : Except String K := do
  let length ← evaluate_bit_string bit_string RECOMMENDED_SIZE
  if bit_string.all (fun c => c == '0') || bit_string.all (fun c => c == '1') then
    .error "Given bit string either contains only zeros or only ones"
  else
    let block_size ← evaluate_test_params length template_len number_of_blocks
    let mean := non_overlapping_mean block_size template_len
    let variance := non_overlapping_variance block_size template_len
    let p_values := templates.map
      (fun t => template_p_value igamc number_of_blocks
        (template_chi_square
          (non_overlapping_counts bit_string block_size number_of_blocks t)
          mean variance))
    pure ((p_values.foldl (· + ·) 0) / (p_values.length : K))

end Engines

/-! ## Basic lemmas about the validator -/

theorem evaluate_bit_string_ok_iff (s : List Char) (r : ℕ) :
    evaluate_bit_string s r = .ok s.length ↔ ValidBits s := by
  unfold evaluate_bit_string ValidBits
  constructor
  · intro h
    by_cases hc : s.isEmpty || s.any (fun c => c != '0' && c != '1')
    · simp [hc] at h
    · simp only [Bool.or_eq_true, not_or] at hc
      refine ⟨by simpa [List.isEmpty_iff] using hc.1, ?_⟩
      intro c hcmem
      have := hc.2
      simp only [List.any_eq_true, not_exists, not_and] at this
      have hcc := this c hcmem
      simp only [Bool.and_eq_true, bne_iff_ne, ne_eq, not_and_or, not_not] at hcc
      tauto
  · intro ⟨hne, hall⟩
    have hc : (s.isEmpty || s.any (fun c => c != '0' && c != '1')) = false := by
      simp only [Bool.or_eq_false_iff]
      constructor
      · simpa [List.isEmpty_iff] using hne
      · simp only [List.any_eq_false]
        intro c hcmem
        rcases hall c hcmem with h | h <;> simp [h]
    simp [hc]

theorem evaluate_bit_string_error_iff (s : List Char) (r : ℕ) :
    (∃ e, evaluate_bit_string s r = .error e) ↔ ¬ ValidBits s := by
  constructor
  · rintro ⟨e, he⟩ hv
    rw [← evaluate_bit_string_ok_iff s r] at hv
    rw [hv] at he
    exact Except.noConfusion he
  · intro hv
    unfold evaluate_bit_string
    by_cases hc : s.isEmpty || s.any (fun c => c != '0' && c != '1')
    · exact ⟨"Bit string is either empty or contains invalid character(s)", by simp [hc]⟩
    · exfalso
      apply hv
      rw [← evaluate_bit_string_ok_iff s r]
      unfold evaluate_bit_string
      simp [hc]

theorem count_ones_cons (c : Char) (s : List Char) :
    count_ones (c :: s) = (if c = '1' then 1 else 0) + count_ones s := by
  unfold count_ones
  rw [List.filter_cons]
  by_cases h : c = '1'
  · simp [h, Nat.add_comm]
  · simp [h]

theorem count_zeros_cons (c : Char) (s : List Char) :
    count_zeros (c :: s) = (if c = '0' then 1 else 0) + count_zeros s := by
  unfold count_zeros
  rw [List.filter_cons]
  by_cases h : c = '0'
  · simp [h, Nat.add_comm]
  · simp [h]

theorem count_ones_le_length (s : List Char) : count_ones s ≤ s.length :=
  List.length_filter_le _ s

theorem compute_partial_sum_eq (s : List Char) :
    compute_partial_sum s = 2 * (count_ones s : ℤ) - s.length := by
  unfold compute_partial_sum
  suffices h : ∀ acc : ℤ,
      s.foldl (fun acc bit => if bit = '1' then acc + 1 else acc - 1) acc
        = acc + 2 * (count_ones s : ℤ) - s.length by
    simpa using h 0
  induction s with
  | nil => intro acc; simp [count_ones]
  | cons c rest ih =>
    intro acc
    rw [List.foldl_cons, count_ones_cons]
    by_cases h : c = '1'
    · rw [if_pos h, if_pos h, ih]
      simp only [List.length_cons]
      push_cast
      ring
    · rw [if_neg h, if_neg h, ih]
      simp only [List.length_cons]
      push_cast
      ring

theorem count_zeros_add_count_ones {s : List Char}
    (hv : ∀ c ∈ s, c = '0' ∨ c = '1') :
    count_zeros s + count_ones s = s.length := by
  induction s with
  | nil => simp [count_ones, count_zeros]
  | cons c rest ih =>
    have hc := hv c (by simp)
    have hr := ih (fun x hx => hv x (List.mem_cons_of_mem _ hx))
    rw [count_ones_cons, count_zeros_cons, List.length_cons]
    rcases hc with h | h <;> subst h <;> simp <;> omega

theorem compute_partial_sum_valid {s : List Char} (hv : ValidBits s) :
    compute_partial_sum s = (count_ones s : ℤ) - (count_zeros s : ℤ) := by
  rw [compute_partial_sum_eq]
  have h := count_zeros_add_count_ones hv.2
  omega

/-- Claim C9: the shared validator errors exactly on an empty string or an
invalid character; on anything else it returns the length; the recommended
minimum plays no role in the result (a short string is only a warning). -/
theorem c9_validator_contract (s : List Char) (r r' : ℕ) :
    ((∃ e, evaluate_bit_string s r = .error e)
        ↔ (s = [] ∨ ∃ c ∈ s, c ≠ '0' ∧ c ≠ '1'))
    ∧ (¬(s = [] ∨ ∃ c ∈ s, c ≠ '0' ∧ c ≠ '1')
        → evaluate_bit_string s r = .ok s.length)
    ∧ evaluate_bit_string s r = evaluate_bit_string s r' := by
  have hchar : (s = [] ∨ ∃ c ∈ s, c ≠ '0' ∧ c ≠ '1') ↔ ¬ ValidBits s := by
    unfold ValidBits
    push_neg
    constructor
    · rintro (h | ⟨c, hc, h0, h1⟩)
      · intro hne; exact absurd h hne
      · intro _; exact ⟨c, hc, h0, h1⟩
    · intro h
      by_cases hne : s = []
      · exact Or.inl hne
      · exact Or.inr (h hne)
  refine ⟨?_, ?_, ?_⟩
  · rw [hchar]; exact evaluate_bit_string_error_iff s r
  · intro h
    rw [hchar, not_not] at h
    exact (evaluate_bit_string_ok_iff s r).mpr h
  · unfold evaluate_bit_string
    rfl

/-- The 100-bit NIST example sequence for the monobit test. -/
def nist100 : List Char :=
  ("1100100100001111110110101010001000100001011010001100001000110100110001001100011001100010100010111000").toList

set_option maxRecDepth 4000 in
/-- Claim C5: the monobit test returns
`erfc((|#ones − #zeros| / √n) / √2)` on every valid sequence; a perfectly
balanced sequence yields exactly 1; on the 100-bit NIST example the partial
sum is −16, so the p-value is `erfc((8/5)/√2)` (≈ 0.10959858340379211 by the
external `erfc`'s value there, pinned by the last hypothesis). -/
theorem c5_monobit_formula (erfc : ℝ → ℝ) (s : List Char)
    (hv : ValidBits s) (h0 : erfc 0 = 1)
    (happrox : |erfc ((8/5) / Real.sqrt 2) - 10959858340379211/100000000000000000| ≤ 1/10^9) :
    frequency_monobit_perform_test erfc Real.sqrt s
      = .ok (erfc ((|(count_ones s : ℝ) - (count_zeros s : ℝ)| / Real.sqrt s.length)
          / Real.sqrt 2))
    ∧ (count_ones s = count_zeros s →
        frequency_monobit_perform_test erfc Real.sqrt s = .ok 1)
    ∧ frequency_monobit_perform_test erfc Real.sqrt nist100
        = .ok (erfc ((8/5) / Real.sqrt 2))
    ∧ (∀ p : ℝ, frequency_monobit_perform_test erfc Real.sqrt nist100 = .ok p →
        |p - 10959858340379211/100000000000000000| ≤ 1/10^9) := by
  have hok := (evaluate_bit_string_ok_iff s RECOMMENDED_SIZE).mpr hv
  have hmain : frequency_monobit_perform_test erfc Real.sqrt s
      = .ok (erfc ((|(count_ones s : ℝ) - (count_zeros s : ℝ)| / Real.sqrt s.length)
          / Real.sqrt 2)) := by
    unfold frequency_monobit_perform_test
    rw [hok]
    show Except.ok _ = _
    congr 1
    congr 2
    rw [compute_partial_sum_valid hv, Int.cast_natAbs]
    push_cast
    ring_nf
  have hnist_valid : ValidBits nist100 := by decide
  have hnist_sum : compute_partial_sum nist100 = -16 := by decide
  have hnist : frequency_monobit_perform_test erfc Real.sqrt nist100
      = .ok (erfc ((8/5) / Real.sqrt 2)) := by
    unfold frequency_monobit_perform_test
    rw [(evaluate_bit_string_ok_iff nist100 RECOMMENDED_SIZE).mpr hnist_valid]
    show Except.ok _ = _
    congr 2
    rw [hnist_sum]
    have hlen : (nist100.length : ℝ) = 100 := by norm_num [nist100]
    rw [hlen]
    have h100 : Real.sqrt 100 = 10 := by
      rw [show (100 : ℝ) = 10^2 by norm_num, Real.sqrt_sq (by norm_num)]
    rw [h100]
    norm_num
  refine ⟨hmain, ?_, hnist, ?_⟩
  · intro hbal
    rw [hmain, hbal]
    simp [h0]
  · intro p hp
    rw [hnist] at hp
    have : p = erfc ((8/5) / Real.sqrt 2) := by
      injection hp.symm
    rw [this]
    exact_mod_cast happrox

/-- Witness for C5 at a concrete erfc and input. -/
theorem c5_monobit_formula_witness :
    ValidBits (("10").toList)
    ∧ (fun x : ℝ => if x = 0 then (1:ℝ) else 10959858340379211/100000000000000000) 0 = 1
    ∧ frequency_monobit_perform_test
        (fun x : ℝ => if x = 0 then (1:ℝ) else 10959858340379211/100000000000000000)
        Real.sqrt (("10").toList)
      = .ok ((fun x : ℝ => if x = 0 then (1:ℝ) else 10959858340379211/100000000000000000)
          ((|(count_ones (("10").toList) : ℝ) - (count_zeros (("10").toList) : ℝ)|
            / Real.sqrt (("10").toList).length) / Real.sqrt 2)) := by
  have harg : ((8:ℝ)/5) / Real.sqrt 2 ≠ 0 := by
    have h2 : (0:ℝ) < Real.sqrt 2 := Real.sqrt_pos.mpr (by norm_num)
    positivity
  have happrox : |(fun x : ℝ => if x = 0 then (1:ℝ) else 10959858340379211/100000000000000000)
      ((8/5) / Real.sqrt 2) - 10959858340379211/100000000000000000| ≤ 1/10^9 := by
    simp only [if_neg harg]
    norm_num
  have h := c5_monobit_formula
    (fun x : ℝ => if x = 0 then (1:ℝ) else 10959858340379211/100000000000000000)
    (("10").toList) (by decide) (by norm_num) happrox
  exact ⟨by decide, by norm_num, h.1⟩

theorem evaluate_bit_string_cases (s : List Char) (r : ℕ) :
    evaluate_bit_string s r = .ok s.length
      ∨ evaluate_bit_string s r
          = .error "Bit string is either empty or contains invalid character(s)" := by
  unfold evaluate_bit_string
  split <;> simp

theorem validBits_reverse (s : List Char) : ValidBits s.reverse ↔ ValidBits s := by
  unfold ValidBits
  simp [List.mem_reverse]

theorem evaluate_bit_string_reverse (s : List Char) (r : ℕ) :
    evaluate_bit_string s.reverse r = evaluate_bit_string s r := by
  by_cases hv : ValidBits s
  · rw [(evaluate_bit_string_ok_iff _ r).mpr hv,
      (evaluate_bit_string_ok_iff _ r).mpr ((validBits_reverse s).mpr hv),
      List.length_reverse]
  · rcases evaluate_bit_string_cases s.reverse r with h1 | h1 <;>
      rcases evaluate_bit_string_cases s r with h2 | h2
    · rw [h1, h2, List.length_reverse]
    · exact absurd ((validBits_reverse s).mp ((evaluate_bit_string_ok_iff _ _).mp h1)) hv
    · exact absurd ((evaluate_bit_string_ok_iff _ _).mp h2) hv
    · rw [h1, h2]

theorem except_bind_ok {e a b : Type} (x : a) (f : a → Except e b) :
    (Except.ok x >>= f) = f x := rfl

/-- Claim C6: cumulative sums in backward mode on `S` returns exactly the
result of forward mode on the bit-reverse of `S` (backward mode operates on
the reversed sequence), for every choice of normal CDF and square root. -/
theorem c6_cusum_backward_eq_forward_reverse {K : Type} [LinearOrderedField K]
    (phi sqrtK : K → K) (s : List Char) :
    cumulative_sums_perform_test phi sqrtK s .backward
      = cumulative_sums_perform_test phi sqrtK s.reverse .forward := by
  unfold cumulative_sums_perform_test
  rw [evaluate_bit_string_reverse]

/-- Claim C7: a zero chi-square is mapped to p-value 1 directly — still an
`Ok`, and without invoking the incomplete-gamma function (the result is the
same for every `igamc`) — both in the block-frequency test and in the
per-template computation of the non-overlapping template test. -/
theorem c7_degenerate_chi_square_p_one (igamc igamc' : ℝ → ℝ → ℝ)
    (s : List Char) (block_size number_of_blocks : ℕ)
    (hv : ValidBits s)
    (hN : evaluate_block_size s.length block_size = .ok number_of_blocks)
    (hchi : frequency_block_chi_square block_size
      (compute_pi_i s number_of_blocks block_size) = 0) :
    frequency_block_perform_test igamc s block_size = .ok 1
    ∧ frequency_block_perform_test igamc s block_size
        = frequency_block_perform_test igamc' s block_size
    ∧ (∀ nb : ℕ, template_p_value (K := ℝ) igamc nb 0 = 1
        ∧ template_p_value (K := ℝ) igamc nb 0 = template_p_value igamc' nb 0) := by
  have hok := (evaluate_bit_string_ok_iff s RECOMMENDED_SIZE).mpr hv
  have hmain : frequency_block_perform_test igamc s block_size = .ok 1 := by
    unfold frequency_block_perform_test
    rw [hok]
    show (evaluate_block_size s.length block_size).bind _ = _
    rw [hN]
    show (if _ = 0 then _ else _) = _
    rw [if_pos hchi]
    rfl
  have hmain' : frequency_block_perform_test igamc' s block_size = .ok 1 := by
    unfold frequency_block_perform_test
    rw [hok]
    show (evaluate_block_size s.length block_size).bind _ = _
    rw [hN]
    show (if _ = 0 then _ else _) = _
    rw [if_pos hchi]
    rfl
  refine ⟨hmain, hmain.trans hmain'.symm, ?_⟩
  intro nb
  constructor
  · unfold template_p_value
    rw [if_pos rfl]
  · unfold template_p_value
    rw [if_pos rfl, if_pos rfl]

/-- Witness for C7: the 4-bit string `0110` with block size 2 has a perfectly
balanced block distribution, hence chi-square exactly 0 and p-value 1. -/
theorem c7_degenerate_chi_square_p_one_witness :
    ValidBits (("0110").toList)
    ∧ evaluate_block_size (("0110").toList).length 2 = .ok 2
    ∧ frequency_block_chi_square 2 (compute_pi_i (("0110").toList) 2 2) = 0
    ∧ frequency_block_perform_test (fun _ _ => (0 : ℝ)) (("0110").toList) 2 = .ok 1 := by
  have hlist : ("0110").toList = ['0', '1', '1', '0'] := rfl
  have hN : evaluate_block_size (("0110").toList).length 2 = .ok 2 := by
    rw [hlist]
    unfold evaluate_block_size RECOMMENDED_SIZE
    norm_num
  have hpi : compute_pi_i (("0110").toList) 2 2 = [1/2, 1/2] := by
    rw [hlist]
    unfold compute_pi_i count_ones
    simp [List.range_succ]
  have hchi : frequency_block_chi_square 2 (compute_pi_i (("0110").toList) 2 2) = 0 := by
    rw [hpi]
    unfold frequency_block_chi_square
    simp
  exact ⟨by decide, hN, hchi,
    (c7_degenerate_chi_square_p_one (fun _ _ => (0:ℝ)) (fun _ _ => (0:ℝ))
      (("0110").toList) 2 2 (by decide) hN hchi).1⟩

/-! ## Binary matrix rank: ground truth for small matrices -/

/-- 3×3 determinant (cofactor expansion along the first row). -/
def det3 (m : List (List ℤ)) : ℤ :=
  mentry m 0 0 * (mentry m 1 1 * mentry m 2 2 - mentry m 1 2 * mentry m 2 1)
    - mentry m 0 1 * (mentry m 1 0 * mentry m 2 2 - mentry m 1 2 * mentry m 2 0)
    + mentry m 0 2 * (mentry m 1 0 * mentry m 2 1 - mentry m 1 1 * mentry m 2 0)

/-- The nine 2×2 minors of a 3×3 matrix. -/
def minors2 (m : List (List ℤ)) : List ℤ :=
  ([(0, 1), (0, 2), (1, 2)] : List (ℕ × ℕ)).bind (fun rc =>
    ([(0, 1), (0, 2), (1, 2)] : List (ℕ × ℕ)).map (fun cc =>
      mentry m rc.1 cc.1 * mentry m rc.2 cc.2
        - mentry m rc.1 cc.2 * mentry m rc.2 cc.1))

/-- The true linear-algebra rank of a 3×3 integer matrix, characterized by
its largest non-vanishing minor. -/
def rank3 (m : List (List ℤ)) : ℕ :=
  if det3 m ≠ 0 then 3
  else if minors2 m |>.any (fun d => d ≠ 0) then 2
  else if (List.range 3).any (fun i => (List.range 3).any (fun j => mentry m i j ≠ 0)) then 1
  else 0

/-- All 0/1 rows of length `n`. -/
def all_bit_rows : ℕ → List (List ℤ)
  | 0 => [[]]
  | n + 1 => (all_bit_rows n).bind (fun r => [(0 : ℤ) :: r, 1 :: r])

/-- All 0/1 matrices with `rows` rows and `cols` columns. -/
def all_bit_matrices : ℕ → ℕ → List (List (List ℤ))
  | 0, _ => [[]]
  | r + 1, c => (all_bit_matrices r c).bind (fun m => (all_bit_rows c).map (· :: m))

/-- The 20-bit NIST example for the binary matrix rank test. -/
def nist20 : List Char := ("01011001001010101101").toList

/-- Claim C1, counterexample: the engine's `compute_rank` does **not** always
return the true rank. The 16-bit input `0111101111001000` with a 4×4 matrix
builds the single matrix `[[0,1,1,1],[1,0,1,1],[1,1,0,0],[1,0,0,0]]`;
`compute_rank` reports rank 4, yet the matrix is singular: its rows satisfy
`r₀ − r₁ − r₂ + 2·r₃ = 0` and its determinant over ℚ is 0 (so the true rank
is at most 3). The slip is the truncating integer division in the
elimination factor, which fails to eliminate entries smaller in magnitude
than the pivot. -/
theorem c1_rank_counterexample :
    construct_matrices (("0111101111001000").toList) 4 4
      = [[[0,1,1,1],[1,0,1,1],[1,1,0,0],[1,0,0,0]]]
    ∧ compute_rank 4 4 [[0,1,1,1],[1,0,1,1],[1,1,0,0],[1,0,0,0]] = 4
    ∧ (∀ j ∈ List.range 4,
        mentry [[0,1,1,1],[1,0,1,1],[1,1,0,0],[1,0,0,0]] 0 j
          - mentry [[0,1,1,1],[1,0,1,1],[1,1,0,0],[1,0,0,0]] 1 j
          - mentry [[0,1,1,1],[1,0,1,1],[1,1,0,0],[1,0,0,0]] 2 j
          + 2 * mentry [[0,1,1,1],[1,0,1,1],[1,1,0,0],[1,0,0,0]] 3 j = 0)
    ∧ Matrix.det (!![(0:ℚ),1,1,1; 1,0,1,1; 1,1,0,0; 1,0,0,0]) = 0 := by
  refine ⟨by decide, by decide, by decide, ?_⟩
  simp [Matrix.det_succ_row_zero, Fin.sum_univ_succ, Fin.succAbove, Matrix.cons_val_zero,
    Matrix.cons_val_one, Matrix.head_cons, Matrix.head_fin_const, Fin.lt_def,
    Fin.castSucc, Fin.castAdd, Fin.castLE, Matrix.cons_val_succ]
  norm_num

theorem binary_matrix_rank_chi_square_nist20 :
    binary_matrix_rank_chi_square nist20 3 3 = 431/722 := by
  have hr : List.map (compute_rank 3 3) (construct_matrices nist20 3 3) = [2, 3] := by
    decide
  unfold binary_matrix_rank_chi_square
  simp only [hr]
  have hlen : nist20.length = 20 := by decide
  rw [hlen]
  norm_num [compute_fraction, APPROXIMATIONS]

set_option maxRecDepth 100000 in
/-- Claim C1, amended: `compute_rank` is Gaussian elimination with partial
pivoting over exact arbitrary-precision integers, but its elimination factor
is a *truncating* integer division, so its pivot count can misreport the
rank of larger matrices (see the counterexample). On every 3×3 0/1 matrix —
in particular the matrices the cited 20-bit example builds — it does return
the true rank, and on `01011001001010101101` with 3×3 matrices the test
returns `exp(−chi²/2)` with `chi² = 431/722`, a p-value ≥ 0.01. -/
theorem c1_rank_amended :
    (∀ m ∈ all_bit_matrices 3 3, compute_rank 3 3 m = rank3 m)
    ∧ binary_matrix_rank_perform_test Real.exp nist20 3 3
        = .ok (Real.exp (-(431/722 : ℝ) * (1/2)))
    ∧ (1/100 : ℝ) ≤ Real.exp (-(431/722 : ℝ) * (1/2)) := by
  refine ⟨by decide, ?_, ?_⟩
  · unfold binary_matrix_rank_perform_test
    have hok : evaluate_bit_string nist20 RECOMMENDED_SIZE_MATRIX_TEST = .ok nist20.length :=
      (evaluate_bit_string_ok_iff _ _).mpr (by decide)
    rw [hok]
    show Except.ok _ = _
    rw [binary_matrix_rank_chi_square_nist20]
    norm_num
  · have h1 : (-(431/722 : ℝ) * (1/2)) = -(431/1444) := by norm_num
    rw [h1]
    have h2 : Real.exp (-(1 : ℝ)) ≤ Real.exp (-(431/1444 : ℝ)) := by
      apply Real.exp_le_exp.mpr
      norm_num
    refine le_trans ?_ h2
    rw [Real.exp_neg]
    have h3 : Real.exp 1 ≤ 100 := le_of_lt
      (lt_trans Real.exp_one_lt_d9 (by norm_num))
    have h4 : (0 : ℝ) < Real.exp 1 := Real.exp_pos 1
    calc (1/100 : ℝ) ≤ 1 / Real.exp 1 := one_div_le_one_div_of_le h4 h3
    _ = (Real.exp 1)⁻¹ := one_div _

/-! ## DFT spectral: the threshold uses log base 10 where NIST requires ln -/

/-- Claim C2: the DFT test does count `N₁` as the number of the first `n/2`
bin moduli strictly below the threshold, form
`d = (N₁ − 0.95·n/2)/√(0.95·0.05·n/4)` and return `erfc(|d|/√2)` — but its
height threshold is `√(log₁₀(1/0.05)·n)` (the source calls `f64::log10`),
not the `√(ln(1/0.05)·n)` the claim (and NIST SP 800-22) prescribe: at
`n = 10` the code threshold is strictly below the required one. -/
theorem c2_dft_structure_and_threshold (erfc : ℝ → ℝ) (cosA sinA : ℚ → ℝ)
    (s : List Char) :
    (ValidBits s →
      dft_spectral_perform_test erfc Real.sqrt (Real.logb 10) cosA sinA s
        = .ok (erfc (|((dft_n1 Real.sqrt cosA sinA s
              (dft_height_threshold Real.sqrt (Real.logb 10) s.length) : ℝ)
              - 95/100 * s.length / 2)
            / Real.sqrt (95/100 * (5/100) * s.length / 4)| / Real.sqrt 2)))
    ∧ dft_height_threshold Real.sqrt (Real.logb 10) 10
        < Real.sqrt (Real.log 20 * 10) := by
  constructor
  · intro hv
    unfold dft_spectral_perform_test
    rw [(evaluate_bit_string_ok_iff s RECOMMENDED_SIZE_DFT).mpr hv]
    show Except.ok _ = _
    have hc0 : ((N_0_CONSTANT : ℚ) : ℝ) = 95/100/2 := by
      norm_num [N_0_CONSTANT]
    have hcd : ∀ n : ℕ, (n : ℝ) * ((NORMALIZED_DIFF_CONSTANT : ℚ) : ℝ)
        = 95/100 * (5/100) * n / 4 := by
      intro n
      have : ((NORMALIZED_DIFF_CONSTANT : ℚ) : ℝ) = 19/1600 := by
        norm_num [NORMALIZED_DIFF_CONSTANT]
      rw [this]
      ring
    rw [hc0, hcd]
    congr 3
    ring
  · unfold dft_height_threshold
    have h20 : ((LOG_ARG : ℚ) : ℝ) = 20 := by norm_num [LOG_ARG]
    rw [h20]
    have hlog10 : (1 : ℝ) < Real.log 10 := by
      rw [Real.lt_log_iff_exp_lt (by norm_num)]
      exact lt_trans Real.exp_one_lt_d9 (by norm_num)
    have hlog20 : (0 : ℝ) < Real.log 20 := Real.log_pos (by norm_num)
    have hlt : Real.logb 10 20 < Real.log 20 := by
      unfold Real.logb
      exact div_lt_self hlog20 hlog10
    have hnn : (0 : ℝ) ≤ Real.logb 10 20 :=
      Real.logb_nonneg (by norm_num) (by norm_num)
    apply Real.sqrt_lt_sqrt
    · push_cast
      nlinarith
    · push_cast
      nlinarith

/-! ## Longest run: the merged bucket map has exactly the threshold keys -/

/-- Keys of an association list. -/
def btKeys (m : List (ℤ × ℤ)) : List ℤ := m.map Prod.fst

/-- Strictly ascending keys (the `BTreeMap` invariant). -/
def KeysSorted (m : List (ℤ × ℤ)) : Prop :=
  List.Pairwise (fun a b : ℤ × ℤ => a.1 < b.1) m

theorem btKeys_btree_add (k v : ℤ) (m : List (ℤ × ℤ)) (x : ℤ) :
    x ∈ btKeys (btree_add k v m) ↔ x = k ∨ x ∈ btKeys m := by
  induction m with
  | nil => simp [btree_add, btKeys]
  | cons p rest ih =>
    unfold btree_add
    by_cases h1 : k < p.1
    · simp [h1, btKeys]
    · by_cases h2 : k = p.1
      · subst h2
        simp [h1, btKeys]
      · simp only [if_neg h1, if_neg h2]
        simp [btKeys] at ih ⊢
        tauto

theorem btKeys_btree_or_insert (k d : ℤ) (m : List (ℤ × ℤ)) (x : ℤ) :
    x ∈ btKeys (btree_or_insert k d m) ↔ x = k ∨ x ∈ btKeys m := by
  induction m with
  | nil => simp [btree_or_insert, btKeys]
  | cons p rest ih =>
    unfold btree_or_insert
    by_cases h1 : k < p.1
    · simp [h1, btKeys]
    · by_cases h2 : k = p.1
      · subst h2
        simp [h1, btKeys]
      · simp only [if_neg h1, if_neg h2]
        simp [btKeys] at ih ⊢
        tauto

theorem keysSorted_btree_add (k v : ℤ) {m : List (ℤ × ℤ)} (hm : KeysSorted m) :
    KeysSorted (btree_add k v m) := by
  induction m with
  | nil => simp [btree_add, KeysSorted]
  | cons p rest ih =>
    have hrest : KeysSorted rest := (List.pairwise_cons.mp hm).2
    have hhead : ∀ q ∈ rest, p.1 < q.1 := (List.pairwise_cons.mp hm).1
    unfold btree_add
    by_cases h1 : k < p.1
    · rw [if_pos h1]
      unfold KeysSorted
      rw [List.pairwise_cons]
      refine ⟨?_, hm⟩
      intro q hq
      rcases List.mem_cons.mp hq with h | h
      · rw [h]; exact h1
      · exact lt_trans h1 (hhead q h)
    · by_cases h2 : k = p.1
      · rw [if_neg h1, if_pos h2]
        unfold KeysSorted
        rw [List.pairwise_cons]
        exact ⟨hhead, hrest⟩
      · rw [if_neg h1, if_neg h2]
        have hk : p.1 < k := by
          rcases lt_trichotomy k p.1 with h | h | h
          · exact absurd h h1
          · exact absurd h h2
          · exact h
        unfold KeysSorted
        rw [List.pairwise_cons]
        constructor
        · intro q hq
          have : q.1 ∈ btKeys (btree_add k v rest) := List.mem_map_of_mem _ hq
          rcases (btKeys_btree_add k v rest q.1).mp this with h | h
          · rw [h]; exact hk
          · rcases List.mem_map.mp h with ⟨q', hq', hq'eq⟩
            rw [← hq'eq]
            exact hhead q' hq'
        · exact ih hrest

theorem keysSorted_btree_or_insert (k d : ℤ) {m : List (ℤ × ℤ)}
    (hm : KeysSorted m) : KeysSorted (btree_or_insert k d m) := by
  induction m with
  | nil => simp [btree_or_insert, KeysSorted]
  | cons p rest ih =>
    have hrest : KeysSorted rest := (List.pairwise_cons.mp hm).2
    have hhead : ∀ q ∈ rest, p.1 < q.1 := (List.pairwise_cons.mp hm).1
    unfold btree_or_insert
    by_cases h1 : k < p.1
    · rw [if_pos h1]
      unfold KeysSorted
      rw [List.pairwise_cons]
      refine ⟨?_, hm⟩
      intro q hq
      rcases List.mem_cons.mp hq with h | h
      · rw [h]; exact h1
      · exact lt_trans h1 (hhead q h)
    · by_cases h2 : k = p.1
      · rw [if_neg h1, if_pos h2]
        exact hm
      · rw [if_neg h1, if_neg h2]
        have hk : p.1 < k := by
          rcases lt_trichotomy k p.1 with h | h | h
          · exact absurd h h1
          · exact absurd h h2
          · exact h
        unfold KeysSorted
        rw [List.pairwise_cons]
        constructor
        · intro q hq
          have : q.1 ∈ btKeys (btree_or_insert k d rest) := List.mem_map_of_mem _ hq
          rcases (btKeys_btree_or_insert k d rest q.1).mp this with h | h
          · rw [h]; exact hk
          · rcases List.mem_map.mp h with ⟨q', hq', hq'eq⟩
            rw [← hq'eq]
            exact hhead q' hq'
        · exact ih hrest

/-- The merge fold of `calculate_vi_values` keeps keys sorted. -/
theorem keysSorted_merge_fold (lo hi : ℤ) (rc : List (ℤ × ℤ)) :
    ∀ acc, KeysSorted acc →
      KeysSorted (rc.foldl
        (fun m kv =>
          if kv.1 ≤ lo then btree_add lo kv.2 m
          else if kv.1 ≥ hi then btree_add hi kv.2 m
          else btree_add kv.1 kv.2 m) acc) := by
  induction rc with
  | nil => intro acc h; exact h
  | cons kv rest ih =>
    intro acc h
    rw [List.foldl_cons]
    apply ih
    split
    · exact keysSorted_btree_add _ _ h
    · split
      · exact keysSorted_btree_add _ _ h
      · exact keysSorted_btree_add _ _ h

/-- Keys after the merge fold stay inside `[lo, hi]`. -/
theorem merge_fold_keys_bounded (lo hi : ℤ) (hlh : lo ≤ hi) (rc : List (ℤ × ℤ)) :
    ∀ acc, (∀ x ∈ btKeys acc, lo ≤ x ∧ x ≤ hi) →
      ∀ x ∈ btKeys (rc.foldl
        (fun m kv =>
          if kv.1 ≤ lo then btree_add lo kv.2 m
          else if kv.1 ≥ hi then btree_add hi kv.2 m
          else btree_add kv.1 kv.2 m) acc),
        lo ≤ x ∧ x ≤ hi := by
  induction rc with
  | nil => intro acc h; exact h
  | cons kv rest ih =>
    intro acc h
    rw [List.foldl_cons]
    apply ih
    intro x hx
    by_cases h1 : kv.1 ≤ lo
    · rw [if_pos h1] at hx
      rcases (btKeys_btree_add _ _ _ _).mp hx with h2 | h2
      · exact ⟨le_of_eq h2.symm, h2 ▸ hlh⟩
      · exact h x h2
    · rw [if_neg h1] at hx
      by_cases h2 : kv.1 ≥ hi
      · rw [if_pos h2] at hx
        rcases (btKeys_btree_add _ _ _ _).mp hx with h3 | h3
        · exact ⟨h3 ▸ hlh, le_of_eq h3⟩
        · exact h x h3
      · rw [if_neg h2] at hx
        rcases (btKeys_btree_add _ _ _ _).mp hx with h3 | h3
        · push_neg at h1 h2
          exact ⟨h3 ▸ le_of_lt h1, h3 ▸ le_of_lt h2⟩
        · exact h x h3

/-- Keys after the fill fold: exactly those of the accumulator plus the
inserted values. -/
theorem fill_fold_keys (lo : ℤ) (idxs : List ℕ) :
    ∀ acc x, x ∈ btKeys (idxs.foldl (fun m (i : ℕ) => btree_or_insert (lo + (i : ℤ)) 0 m) acc)
      ↔ x ∈ btKeys acc ∨ ∃ i ∈ idxs, x = lo + i := by
  induction idxs with
  | nil => intro acc x; simp
  | cons i rest ih =>
    intro acc x
    rw [List.foldl_cons, ih]
    rw [btKeys_btree_or_insert]
    simp only [List.mem_cons]
    constructor
    · rintro (⟨h | h⟩ | ⟨j, hj, hx⟩)
      · exact Or.inr ⟨i, Or.inl rfl, h⟩
      · exact Or.inl h
      · exact Or.inr ⟨j, Or.inr hj, hx⟩
    · rintro (h | ⟨j, (hj | hj), hx⟩)
      · exact Or.inl (Or.inr h)
      · exact Or.inl (Or.inl (hx.trans (by rw [hj])))
      · exact Or.inr ⟨j, hj, hx⟩

/-- The fill fold keeps keys sorted. -/
theorem keysSorted_fill_fold (lo : ℤ) (idxs : List ℕ) :
    ∀ acc, KeysSorted acc →
      KeysSorted (idxs.foldl (fun m (i : ℕ) => btree_or_insert (lo + (i : ℤ)) 0 m) acc) := by
  induction idxs with
  | nil => intro acc h; exact h
  | cons i rest ih =>
    intro acc h
    rw [List.foldl_cons]
    exact ih _ (keysSorted_btree_or_insert _ _ h)

theorem keysSorted_nodup {m : List (ℤ × ℤ)} (hm : KeysSorted m) :
    (btKeys m).Nodup := by
  unfold btKeys
  have h : List.Pairwise (· < ·) (m.map Prod.fst) := List.pairwise_map.mpr hm
  exact h.imp ne_of_lt

theorem calculate_vi_values_keys (rc : List (ℤ × ℤ)) (lo hi : ℤ) (hlh : lo ≤ hi) :
    (btKeys (calculate_vi_values rc (lo, hi))).length = (hi - lo + 1).toNat
    ∧ (∀ i : ℤ, i ∈ btKeys (calculate_vi_values rc (lo, hi)) ↔ (lo ≤ i ∧ i ≤ hi)) := by
  have hexp : calculate_vi_values rc (lo, hi)
      = (List.range (hi - lo + 1).toNat).foldl
          (fun m (i : ℕ) => btree_or_insert (lo + (i : ℤ)) 0 m)
          (rc.foldl
            (fun m kv =>
              if kv.1 ≤ lo then btree_add lo kv.2 m
              else if kv.1 ≥ hi then btree_add hi kv.2 m
              else btree_add kv.1 kv.2 m) []) := rfl
  rw [hexp]
  set merged := rc.foldl
    (fun m kv =>
      if kv.1 ≤ lo then btree_add lo kv.2 m
      else if kv.1 ≥ hi then btree_add hi kv.2 m
      else btree_add kv.1 kv.2 m) [] with hmerged
  have hmsorted : KeysSorted merged := by
    rw [hmerged]
    exact keysSorted_merge_fold _ _ rc [] (by simp [KeysSorted])
  have hmbound : ∀ x ∈ btKeys merged, lo ≤ x ∧ x ≤ hi := by
    rw [hmerged]
    exact merge_fold_keys_bounded lo hi hlh rc [] (by simp [btKeys])
  have hmem : ∀ x : ℤ,
      x ∈ btKeys ((List.range (hi - lo + 1).toNat).foldl
        (fun m (i : ℕ) => btree_or_insert (lo + (i : ℤ)) 0 m) merged)
      ↔ (lo ≤ x ∧ x ≤ hi) := by
    intro x
    rw [fill_fold_keys]
    constructor
    · rintro (h | ⟨i, hi', hx⟩)
      · exact hmbound x h
      · simp only [List.mem_range] at hi'
        have : (i : ℤ) < hi - lo + 1 := by omega
        omega
    · intro ⟨h1, h2⟩
      right
      refine ⟨(x - lo).toNat, ?_, ?_⟩
      · simp only [List.mem_range]
        omega
      · omega
  have hsorted : KeysSorted ((List.range (hi - lo + 1).toNat).foldl
      (fun m (i : ℕ) => btree_or_insert (lo + (i : ℤ)) 0 m) merged) :=
    keysSorted_fill_fold _ _ _ hmsorted
  refine ⟨?_, hmem⟩
  have hnodup := keysSorted_nodup hsorted
  rw [← List.toFinset_card_of_nodup hnodup]
  have hset : (btKeys ((List.range (hi - lo + 1).toNat).foldl
      (fun m (i : ℕ) => btree_or_insert (lo + (i : ℤ)) 0 m) merged)).toFinset
      = Finset.Icc lo hi := by
    ext x
    rw [List.mem_toFinset, hmem, Finset.mem_Icc]
  rw [hset, Int.card_Icc]
  congr 1
  omega

/-- Claim C8: the longest-run configuration is looked up from the three fixed
length regimes `[128, 6272)`, `[6272, 750000)`, `[750000, ∞)`; lengths below
128 are an error (and `perform_test` then fails for every sequence of that
length); and the merged `v_i` map has exactly `high − low + 1` buckets, one
for every value in `[low, high]`, each present even with a zero count. -/
theorem c8_longest_run_config_and_buckets (igamc : ℝ → ℝ → ℝ) :
    (∀ n : ℕ, MIN_LENGTH ≤ n → n < MID_LENGTH →
      get_longest_run_config n
        = .ok ⟨MIN_SIZE_M, MIN_SIZE_N, MIN_THRESHOLDS, MIN_PI_VALUES⟩)
    ∧ (∀ n : ℕ, MID_LENGTH ≤ n → n < MAX_LENGTH →
      get_longest_run_config n
        = .ok ⟨MID_SIZE_M, MID_SIZE_N, MID_THRESHOLDS, MID_PI_VALUES⟩)
    ∧ (∀ n : ℕ, MAX_LENGTH ≤ n →
      get_longest_run_config n
        = .ok ⟨MAX_SIZE_M, MAX_SIZE_N, MAX_THRESHOLDS, MAX_PI_VALUES⟩)
    ∧ (∀ n : ℕ, n < MIN_LENGTH →
      get_longest_run_config n = .error "Bit string needs at least 128 bits")
    ∧ (∀ (rc : List (ℤ × ℤ)) (lo hi : ℤ), lo ≤ hi →
        (btKeys (calculate_vi_values rc (lo, hi))).length = (hi - lo + 1).toNat
        ∧ (∀ i : ℤ, lo ≤ i → i ≤ hi → i ∈ btKeys (calculate_vi_values rc (lo, hi))))
    ∧ (∀ s : List Char, s.length < MIN_LENGTH →
        ∃ e, longest_run_perform_test igamc s = .error e) := by
  refine ⟨?_, ?_, ?_, ?_, ?_, ?_⟩
  · intro n h1 h2
    unfold get_longest_run_config
    rw [if_neg (by omega), if_pos ⟨h1, h2⟩]
  · intro n h1 h2
    unfold get_longest_run_config
    have hmin : ¬ n < MIN_LENGTH := by
      unfold MIN_LENGTH MID_LENGTH at *
      omega
    have hnot1 : ¬ (MIN_LENGTH ≤ n ∧ n < MID_LENGTH) := by
      unfold MID_LENGTH at *
      omega
    rw [if_neg hmin, if_neg hnot1, if_pos ⟨h1, h2⟩]
  · intro n h1
    unfold get_longest_run_config
    have hmin : ¬ n < MIN_LENGTH := by
      unfold MIN_LENGTH MAX_LENGTH at *
      omega
    have hnot1 : ¬ (MIN_LENGTH ≤ n ∧ n < MID_LENGTH) := by
      unfold MID_LENGTH MAX_LENGTH at *
      omega
    have hnot2 : ¬ (MID_LENGTH ≤ n ∧ n < MAX_LENGTH) := by
      unfold MAX_LENGTH at *
      omega
    rw [if_neg hmin, if_neg hnot1, if_neg hnot2]
  · intro n h1
    unfold get_longest_run_config
    rw [if_pos h1]
  · intro rc lo hi hlh
    have h := calculate_vi_values_keys rc lo hi hlh
    exact ⟨h.1, fun i h1 h2 => (h.2 i).mpr ⟨h1, h2⟩⟩
  · intro s hs
    by_cases hv : ValidBits s
    · refine ⟨"Bit string needs at least 128 bits", ?_⟩
      unfold longest_run_perform_test
      rw [(evaluate_bit_string_ok_iff s MIN_LENGTH).mpr hv]
      show (get_longest_run_config s.length).bind _ = _
      unfold get_longest_run_config
      rw [if_pos hs]
      rfl
    · refine ⟨"Bit string is either empty or contains invalid character(s)", ?_⟩
      unfold longest_run_perform_test
      rcases evaluate_bit_string_cases s MIN_LENGTH with h | h
      · exact absurd ((evaluate_bit_string_ok_iff s MIN_LENGTH).mp h) hv
      · rw [h]
        rfl

/-! ## Runs applicability pre-check (claim C10) -/

theorem count_ones_replicate_zero (L : ℕ) :
    count_ones (List.replicate L '0') = 0 := by
  unfold count_ones
  rw [List.filter_replicate]
  simp

theorem count_ones_replicate_one (L : ℕ) :
    count_ones (List.replicate L '1') = L := by
  unfold count_ones
  rw [List.filter_replicate]
  simp

theorem validBits_replicate_zero {L : ℕ} (hL : 1 ≤ L) :
    ValidBits (List.replicate L '0') := by
  constructor
  · simp [List.replicate_eq_nil_iff]
    omega
  · intro c hc
    left
    exact List.eq_of_mem_replicate hc

theorem validBits_replicate_one {L : ℕ} (hL : 1 ≤ L) :
    ValidBits (List.replicate L '1') := by
  constructor
  · simp [List.replicate_eq_nil_iff]
    omega
  · intro c hc
    right
    exact List.eq_of_mem_replicate hc

/-- For valid input, the Runs engine errors exactly when the applicability
requirement `|π − 0.5| ≥ 2/√n` holds. -/
theorem runs_applicability_error_iff (erfc : ℝ → ℝ) (s : List Char)
    (hv : ValidBits s) :
    (∃ e, runs_perform_test erfc Real.sqrt s = .error e)
      ↔ 2 / Real.sqrt (s.length : ℝ)
          ≤ |((runs_pre_test_proportion s : ℝ)) - 1/2| := by
  unfold runs_perform_test
  rw [(evaluate_bit_string_ok_iff _ RECOMMENDED_SIZE).mpr hv]
  show (∃ e, (if _ ≤ _ then _ else _) = Except.error e) ↔ _
  by_cases hc : 2 / Real.sqrt (s.length : ℝ)
      ≤ |((runs_pre_test_proportion s : ℝ)) - 1/2|
  · rw [if_pos hc]
    exact ⟨fun _ => hc, fun _ => ⟨"Runs Test is not applicable", rfl⟩⟩
  · rw [if_neg hc]
    constructor
    · rintro ⟨e, he⟩
      exact absurd he (by simp [pure, Except.pure])
    · intro h
      exact absurd h hc

/-- Claim C10, counterexample: the all-zeros string of length 4 is *not*
rejected by the Runs engine — `τ = 2/√4 = 1 > 1/2 = |π − 0.5|` — so
"all-zeros inputs always error" is false; the pre-check only rejects
all-zeros/all-ones once `n ≥ 16`. -/
theorem c10_runs_counterexample :
    (runs_perform_test (fun _ => (0 : ℝ)) Real.sqrt (("0000").toList)).isOk
      = true := by
  have hv : ValidBits (("0000").toList) := by decide
  have hprop : runs_pre_test_proportion (("0000").toList) = 0 := by
    unfold runs_pre_test_proportion
    have h1 : count_ones (("0000").toList) = 0 := by decide
    rw [h1]
    norm_num
  have hsqrt : Real.sqrt (((("0000").toList).length : ℕ) : ℝ) = 2 := by
    rw [show (((("0000").toList).length : ℕ) : ℝ) = 4 by norm_num,
      show (4:ℝ) = 2^2 by norm_num, Real.sqrt_sq (by norm_num)]
  have hcond : ¬ (2 / Real.sqrt (((("0000").toList).length : ℕ) : ℝ)
      ≤ |((runs_pre_test_proportion (("0000").toList) : ℝ)) - 1/2|) := by
    rw [hsqrt, hprop]
    push_cast
    rw [abs_sub_comm, sub_zero, abs_of_nonneg (by norm_num : (0:ℝ) ≤ 1/2)]
    norm_num
  unfold runs_perform_test
  rw [(evaluate_bit_string_ok_iff _ RECOMMENDED_SIZE).mpr hv, except_bind_ok]
  simp only []
  rw [if_neg hcond]
  rfl

/-- Claim C10, amended: the Runs engine mandatorily errors whenever
`|π − 0.5| ≥ 2/√n` (and, for valid input, errors **only** then); all-zeros
and all-ones inputs therefore error exactly when `n ≥ 16` (for shorter
strings `2/√n > 1/2` and the test runs — see the counterexample for `n = 4`);
the Cumulative Sums engine performs no such check and returns Ok on every
valid input in both modes. -/
theorem c10_runs_requirement_mandatory (erfc phi : ℝ → ℝ) :
    (∀ s : List Char, ValidBits s →
      ((∃ e, runs_perform_test erfc Real.sqrt s = .error e)
        ↔ 2 / Real.sqrt (s.length : ℝ)
            ≤ |((runs_pre_test_proportion s : ℝ)) - 1/2|))
    ∧ (∀ L : ℕ, 16 ≤ L →
        (∃ e, runs_perform_test erfc Real.sqrt (List.replicate L '0') = .error e)
        ∧ (∃ e, runs_perform_test erfc Real.sqrt (List.replicate L '1') = .error e))
    ∧ (∀ (s : List Char) (mode : Mode), ValidBits s →
        (cumulative_sums_perform_test phi Real.sqrt s mode).isOk = true) := by
  have hmain := runs_applicability_error_iff erfc
  refine ⟨hmain, ?_, ?_⟩
  · intro L hL
    have hL1 : 1 ≤ L := by omega
    have hlen0 : (((List.replicate L '0').length : ℕ) : ℝ) = L := by simp
    have hlen1 : (((List.replicate L '1').length : ℕ) : ℝ) = L := by simp
    have hsqrt_le : (4:ℝ) ≤ Real.sqrt (L : ℝ) := by
      have h16 : Real.sqrt 16 = 4 := by
        rw [show (16:ℝ) = 4^2 by norm_num, Real.sqrt_sq (by norm_num)]
      rw [← h16]
      apply Real.sqrt_le_sqrt
      exact_mod_cast hL
    have hsqrt_pos : (0:ℝ) < Real.sqrt (L : ℝ) := by linarith
    have htau : 2 / Real.sqrt (L : ℝ) ≤ 1/2 := by
      rw [div_le_iff hsqrt_pos]
      linarith
    constructor
    · rw [hmain _ (validBits_replicate_zero hL1)]
      rw [hlen0]
      have hp : runs_pre_test_proportion (List.replicate L '0') = 0 := by
        unfold runs_pre_test_proportion
        rw [count_ones_replicate_zero]
        norm_num
      rw [hp]
      push_cast
      rw [abs_sub_comm, sub_zero, abs_of_nonneg (by norm_num : (0:ℝ) ≤ 1/2)]
      exact htau
    · rw [hmain _ (validBits_replicate_one hL1)]
      rw [hlen1]
      have hp : runs_pre_test_proportion (List.replicate L '1') = 1 := by
        unfold runs_pre_test_proportion
        rw [count_ones_replicate_one, List.length_replicate]
        exact div_self (Nat.cast_ne_zero.mpr (by omega))
      rw [hp]
      push_cast
      rw [show (1:ℝ) - 1/2 = 1/2 by norm_num,
        abs_of_nonneg (by norm_num : (0:ℝ) ≤ 1/2)]
      exact htau
  · intro s mode hv
    unfold cumulative_sums_perform_test
    rw [(evaluate_bit_string_ok_iff _ RECOMMENDED_SIZE).mpr hv, except_bind_ok]
    rfl

/-! ## Cumulative sums can exceed 1 (claim C4) -/

/-- The shape the suite relies on for the standard normal CDF: monotone,
valued in `[0,1]`, symmetric about `(0, 1/2)`. -/
def IsCdfLike (phi : ℝ → ℝ) : Prop :=
  Monotone phi ∧ (∀ x, 0 ≤ phi x ∧ phi x ≤ 1) ∧ (∀ x, phi (-x) = 1 - phi x)

/-- A piecewise-rational function agreeing with the standard normal CDF to
six decimals at `±1/2` and `±3/2` (`Φ(0.5) ≈ 0.691462`,
`Φ(1.5) ≈ 0.933193`), and satisfying `IsCdfLike`. This is a witness object
standing in for the external CDF, not an embedding of source code. -/
noncomputable def phi0 : ℝ → ℝ := fun x =>
  if x < -1 then 66807/1000000
  else if x < 0 then 308538/1000000
  else if x ≤ 0 then 1/2
  else if x ≤ 1 then 691462/1000000
  else 933193/1000000

theorem phi0_cdf_like : IsCdfLike phi0 := by
  refine ⟨?_, ?_, ?_⟩
  · intro a b hab
    unfold phi0
    split_ifs <;> push_neg at * <;> first | linarith | norm_num
  · intro x
    unfold phi0
    split_ifs <;> norm_num
  · intro x
    unfold phi0
    split_ifs <;> push_neg at * <;> first | linarith | norm_num

theorem cusum_limits_4_1 : cusum_limits 4 1 = (0, 0, -1) := by
  unfold cusum_limits qtrunc
  norm_num
  rw [Int.ceil_eq_iff] <;> norm_num

/-- Claim C4, counterexample: on the valid 4-bit sequence `0101` the
cumulative-sums engine returns `1 − sum₁ + sum₂ = 2 − 4·Φ(1/2) + 2·Φ(3/2)`,
which for any CDF agreeing with the standard normal CDF to six decimals at
`±1/2`, `±3/2` equals `1.100538 > 1`: the truncated series is **not** a
p-value in `[0, 1]`. -/
theorem c4_cusum_exceeds_one_counterexample :
    IsCdfLike phi0
    ∧ phi0 (1/2) = 691462/1000000 ∧ phi0 (3/2) = 933193/1000000
    ∧ cumulative_sums_perform_test phi0 Real.sqrt (("0101").toList) .forward
        = .ok (1100538/1000000 : ℝ)
    ∧ (1 : ℝ) < 1100538/1000000 := by
  have hval12 : phi0 (1/2) = 691462/1000000 := by
    unfold phi0
    norm_num
  have hval32 : phi0 (3/2) = 933193/1000000 := by
    unfold phi0
    norm_num
  have hvalm12 : phi0 (-(1/2)) = 308538/1000000 := by
    unfold phi0
    norm_num
  have hvalm32 : phi0 (-(3/2)) = 66807/1000000 := by
    unfold phi0
    norm_num
  refine ⟨phi0_cdf_like, hval12, hval32, ?_, by norm_num⟩
  have hv : ValidBits (("0101").toList) := by decide
  have hz : cusum_max_sum_z (("0101").toList) = 1 := by decide
  have hsqrt : Real.sqrt (((("0101").toList).length : ℕ) : ℝ) = 2 := by
    rw [show (((("0101").toList).length : ℕ) : ℝ) = 4 by norm_num,
      show (4:ℝ) = 2^2 by norm_num, Real.sqrt_sq (by norm_num)]
  unfold cumulative_sums_perform_test
  rw [(evaluate_bit_string_ok_iff _ RECOMMENDED_SIZE).mpr hv, except_bind_ok]
  show (let new_bit_string := ("0101").toList
    let max_sum_z := cusum_max_sum_z new_bit_string
    let p := cusum_limits (("0101").toList).length max_sum_z
    let upper_limit := p.1
    let lower_limit_1 := p.2.1
    let lower_limit_2 := p.2.2
    let denominator : ℝ := Real.sqrt ((("0101").toList).length : ℝ)
    let sum_1 : ℝ := ∑ k in Finset.Icc lower_limit_1 upper_limit,
      (phi0 ((4 * (k : ℝ) + 1) * (max_sum_z : ℝ) / denominator)
        - phi0 ((4 * (k : ℝ) - 1) * (max_sum_z : ℝ) / denominator))
    let sum_2 : ℝ := ∑ k in Finset.Icc lower_limit_2 upper_limit,
      (phi0 ((4 * (k : ℝ) + 3) * (max_sum_z : ℝ) / denominator)
        - phi0 ((4 * (k : ℝ) + 1) * (max_sum_z : ℝ) / denominator))
    pure (1 - sum_1 + sum_2)) = Except.ok (1100538/1000000 : ℝ)
  simp only [hz]
  rw [show (("0101").toList).length = 4 from by decide, cusum_limits_4_1]
  simp only []
  rw [show Finset.Icc (0:ℤ) 0 = {0} from Finset.Icc_self 0,
    show Finset.Icc (-1:ℤ) 0 = {-1, 0} from by decide]
  rw [Finset.sum_singleton, Finset.sum_pair (by norm_num : (-1 : ℤ) ≠ 0)]
  show Except.ok _ = _
  congr 1
  push_cast
  rw [show (Real.sqrt (4:ℝ)) = 2 from by
    rw [show (4:ℝ) = 2^2 by norm_num, Real.sqrt_sq (by norm_num)]]
  rw [show (4 * (0:ℝ) + 1) * 1 / 2 = 1/2 by norm_num,
    show (4 * (0:ℝ) - 1) * 1 / 2 = -(1/2) by norm_num,
    show (4 * (-1:ℝ) + 3) * 1 / 2 = -(1/2) by norm_num,
    show (4 * (-1:ℝ) + 1) * 1 / 2 = -(3/2) by norm_num,
    show (4 * (0:ℝ) + 3) * 1 / 2 = 3/2 by norm_num]
  rw [hval12, hvalm12, hval32, hvalm32]
  norm_num

/-! ## Ok-characterizations of the engines (valid input) -/

section OkLemmas

variable {K : Type} [LinearOrderedField K]

theorem frequency_monobit_ok (erfc sqrtK : K → K) {s : List Char}
    (hv : ValidBits s) :
    frequency_monobit_perform_test erfc sqrtK s
      = .ok (erfc (((compute_partial_sum s).natAbs : K)
          / sqrtK (s.length : K) / sqrtK 2)) := by
  unfold frequency_monobit_perform_test
  rw [(evaluate_bit_string_ok_iff s RECOMMENDED_SIZE).mpr hv, except_bind_ok]
  rfl

theorem frequency_monobit_error {erfc sqrtK : K → K} {s : List Char}
    (hv : ¬ ValidBits s) :
    frequency_monobit_perform_test erfc sqrtK s
      = .error "Bit string is either empty or contains invalid character(s)" := by
  unfold frequency_monobit_perform_test
  rcases evaluate_bit_string_cases s RECOMMENDED_SIZE with h | h
  · exact absurd ((evaluate_bit_string_ok_iff _ _).mp h) hv
  · rw [h]
    rfl

theorem frequency_block_ok (igamc : K → K → K) {s : List Char}
    {block_size number_of_blocks : ℕ} (hv : ValidBits s)
    (hN : evaluate_block_size s.length block_size = .ok number_of_blocks) :
    frequency_block_perform_test igamc s block_size
      = (if frequency_block_chi_square block_size
            (compute_pi_i s number_of_blocks block_size) = 0 then .ok 1
         else .ok (igamc ((number_of_blocks : K) * (1/2))
            ((frequency_block_chi_square block_size
              (compute_pi_i s number_of_blocks block_size) : K) * (1/2)))) := by
  unfold frequency_block_perform_test
  rw [(evaluate_bit_string_ok_iff s RECOMMENDED_SIZE).mpr hv, except_bind_ok]
  show (evaluate_block_size s.length block_size).bind _ = _
  rw [hN]
  show (if _ = 0 then _ else _) = _
  split <;> rfl

theorem runs_ok (erfc sqrtK : K → K) {s : List Char} (hv : ValidBits s)
    (hcond : ¬ (2 / sqrtK (s.length : K)
      ≤ |((runs_pre_test_proportion s : K)) - 1/2|)) :
    runs_perform_test erfc sqrtK s
      = .ok (erfc (|(compute_v_n_observed s : K)
          - 2 * (s.length : K) * ((runs_pre_test_proportion s : K)
            * (1 - (runs_pre_test_proportion s : K)))|
        / (2 * sqrtK (2 * (s.length : K)) * ((runs_pre_test_proportion s : K)
            * (1 - (runs_pre_test_proportion s : K)))))) := by
  unfold runs_perform_test
  rw [(evaluate_bit_string_ok_iff s RECOMMENDED_SIZE).mpr hv, except_bind_ok]
  show (if _ ≤ _ then _ else _) = _
  rw [if_neg hcond]
  rfl

theorem longest_run_ok (igamc : K → K → K) {s : List Char}
    {cfg : LongestRunConfig} (hv : ValidBits s)
    (hcfg : get_longest_run_config s.length = .ok cfg) :
    longest_run_perform_test igamc s
      = .ok (igamc (((cfg.pi_values.length : K) - 1) * (1/2))
          ((longest_run_chi_square_of s cfg : K) * (1/2))) := by
  unfold longest_run_perform_test
  rw [(evaluate_bit_string_ok_iff s MIN_LENGTH).mpr hv, except_bind_ok]
  show (get_longest_run_config s.length).bind _ = _
  rw [hcfg]
  rfl

theorem binary_matrix_rank_ok (expK : K → K) {s : List Char}
    (hv : ValidBits s) (matrix_rows_m matrix_columns_q : ℕ) :
    binary_matrix_rank_perform_test expK s matrix_rows_m matrix_columns_q
      = .ok (expK (-(binary_matrix_rank_chi_square s matrix_rows_m
          matrix_columns_q : K) * (1/2))) := by
  unfold binary_matrix_rank_perform_test
  rw [(evaluate_bit_string_ok_iff s RECOMMENDED_SIZE_MATRIX_TEST).mpr hv,
    except_bind_ok]
  rfl

theorem dft_spectral_ok (erfc sqrtK lgK : K → K) (cosA sinA : ℚ → K)
    {s : List Char} (hv : ValidBits s) :
    dft_spectral_perform_test erfc sqrtK lgK cosA sinA s
      = .ok (erfc (|((dft_n1 sqrtK cosA sinA s
            (dft_height_threshold sqrtK lgK s.length) : K)
            - (N_0_CONSTANT : K) * (s.length : K))
          / sqrtK ((s.length : K) * (NORMALIZED_DIFF_CONSTANT : K))|
        / sqrtK 2)) := by
  unfold dft_spectral_perform_test
  rw [(evaluate_bit_string_ok_iff s RECOMMENDED_SIZE_DFT).mpr hv, except_bind_ok]
  rfl

theorem non_overlapping_template_ok (igamc : K → K → K) {s : List Char}
    {template_len number_of_blocks block_size : ℕ}
    (templates : List (List Char)) (hv : ValidBits s)
    (hnz : ¬ (s.all (fun c => c == '0') || s.all (fun c => c == '1')) = true)
    (hbs : evaluate_test_params s.length template_len number_of_blocks
      = .ok block_size) :
    non_overlapping_template_perform_test igamc s template_len number_of_blocks
        templates
      = .ok (((templates.map
          (fun t => template_p_value (K := K) igamc number_of_blocks
            (template_chi_square
              (non_overlapping_counts s block_size number_of_blocks t)
              (non_overlapping_mean block_size template_len)
              (non_overlapping_variance block_size template_len)))).foldl
            (· + ·) 0)
          / ((templates.map
            (fun t => template_p_value (K := K) igamc number_of_blocks
              (template_chi_square
                (non_overlapping_counts s block_size number_of_blocks t)
                (non_overlapping_mean block_size template_len)
                (non_overlapping_variance block_size template_len)))).length : K)) := by
  unfold non_overlapping_template_perform_test
  rw [(evaluate_bit_string_ok_iff s RECOMMENDED_SIZE).mpr hv, except_bind_ok]
  show (if _ then _ else _) = _
  rw [if_neg hnz]
  show (evaluate_test_params s.length template_len number_of_blocks).bind _ = _
  rw [hbs]
  rfl

end OkLemmas

/-! ## Nonnegativity and parameter facts for the p-value range -/

theorem foldl_add_sq_ge (l : List ℚ) :
    ∀ acc : ℚ, acc ≤ l.foldl (fun a p => a + (p - 1/2)^2) acc := by
  induction l with
  | nil => intro acc; simp
  | cons p rest ih =>
    intro acc
    rw [List.foldl_cons]
    refine le_trans ?_ (ih (acc + (p - 1/2)^2))
    nlinarith [sq_nonneg (p - 1/2)]

theorem frequency_block_chi_square_nonneg (block_size : ℕ) (pi_i : List ℚ) :
    0 ≤ frequency_block_chi_square block_size pi_i := by
  unfold frequency_block_chi_square
  have h := foldl_add_sq_ge pi_i 0
  positivity

theorem foldl_add_div_sq_ge (mean variance : ℚ) (hvar : 0 ≤ variance)
    (l : List ℕ) :
    ∀ acc : ℚ, acc ≤ l.foldl (fun a (c : ℕ) => a + ((c : ℚ) - mean)^2 / variance) acc := by
  induction l with
  | nil => intro acc; simp
  | cons c rest ih =>
    intro acc
    rw [List.foldl_cons]
    refine le_trans ?_ (ih _)
    have h1 : 0 ≤ ((c : ℚ) - mean)^2 / variance :=
      div_nonneg (sq_nonneg _) hvar
    linarith

theorem template_chi_square_nonneg (counts : List ℕ) (mean variance : ℚ)
    (hvar : 0 ≤ variance) : 0 ≤ template_chi_square counts mean variance := by
  unfold template_chi_square
  exact foldl_add_div_sq_ge mean variance hvar counts 0

theorem two_mul_sub_one_lt_two_pow {m : ℕ} (hm : 2 ≤ m) :
    (2 * m - 1 : ℕ) < 2^m := by
  induction m with
  | zero => omega
  | succ k ih =>
    rcases Nat.lt_or_ge k 2 with h | h
    · interval_cases k <;> simp_all <;> omega
    · have h1 := ih (by omega)
      have h2 : 2^k ≥ 2 := by
        calc 2^k ≥ 2^1 := Nat.pow_le_pow_right (by omega) (by omega)
        _ = 2 := by norm_num
      have h3 : 2^(k+1) = 2 * 2^k := by ring
      omega

theorem non_overlapping_variance_pos {block_size template_len : ℕ}
    (hbs : 1 ≤ block_size) (hm : 2 ≤ template_len) :
    0 < non_overlapping_variance block_size template_len := by
  unfold non_overlapping_variance
  have h1 : (0:ℚ) < block_size := by exact_mod_cast hbs
  have h2 : (2 * template_len - 1 : ℕ) < 2^template_len :=
    two_mul_sub_one_lt_two_pow hm
  have h3 : (0:ℚ) < ((2^template_len : ℕ) : ℚ) := by
    have : 0 < (2^template_len : ℕ) := Nat.pos_pow_of_pos _ (by omega)
    exact_mod_cast this
  have h4 : (0:ℚ) < ((2^(2*template_len) : ℕ) : ℚ) := by
    have : 0 < (2^(2*template_len) : ℕ) := Nat.pos_pow_of_pos _ (by omega)
    exact_mod_cast this
  have h5 : (2 * (template_len : ℚ) - 1) / ((2^(2*template_len) : ℕ) : ℚ)
      < 1 / ((2^template_len : ℕ) : ℚ) := by
    rw [div_lt_div_iff h4 h3]
    have hcast : ((2 * template_len - 1 : ℕ) : ℚ) = 2 * (template_len : ℚ) - 1 := by
      have : 1 ≤ 2 * template_len := by omega
      push_cast [this]
      ring
    have hsq : ((2^(2*template_len) : ℕ) : ℚ)
        = ((2^template_len : ℕ) : ℚ) * ((2^template_len : ℕ) : ℚ) := by
      push_cast
      rw [two_mul, pow_add]
    rw [← hcast, hsq]
    have h6 : ((2 * template_len - 1 : ℕ) : ℚ) < ((2^template_len : ℕ) : ℚ) := by
      exact_mod_cast h2
    nlinarith
  have h7 : 0 < 1 / ((2^template_len : ℕ) : ℚ)
      - (2 * (template_len : ℚ) - 1) / ((2^(2*template_len) : ℕ) : ℚ) := by
    linarith
  positivity

theorem foldl_add_div_pair_ge (number_of_blocks : ℕ) (l : List ((ℤ × ℤ) × ℚ))
    (hl : ∀ x ∈ l, 0 ≤ x.2) :
    ∀ acc : ℚ, acc ≤ l.foldl
      (fun acc x =>
        acc + ((x.1.2 : ℚ) - (number_of_blocks : ℚ) * x.2)^2
          / ((number_of_blocks : ℚ) * x.2)) acc := by
  induction l with
  | nil => intro acc; simp
  | cons x rest ih =>
    intro acc
    rw [List.foldl_cons]
    refine le_trans ?_ (ih (fun y hy => hl y (List.mem_cons_of_mem _ hy)) _)
    have hx : 0 ≤ x.2 := hl x (List.mem_cons_self _ _)
    have h1 : (0:ℚ) ≤ (number_of_blocks : ℚ) * x.2 := by positivity
    have h2 : 0 ≤ ((x.1.2 : ℚ) - (number_of_blocks : ℚ) * x.2)^2
        / ((number_of_blocks : ℚ) * x.2) := div_nonneg (sq_nonneg _) h1
    linarith

theorem longest_run_chi_square_nonneg (vi : List (ℤ × ℤ)) (number_of_blocks : ℕ)
    (pis : List ℚ) (hpi : ∀ p ∈ pis, 0 ≤ p) :
    0 ≤ longest_run_chi_square vi number_of_blocks pis := by
  unfold longest_run_chi_square
  refine foldl_add_div_pair_ge number_of_blocks (vi.zip pis) ?_ 0
  intro x hx
  exact hpi x.2 (List.of_mem_zip hx).2

theorem compute_fraction_nonneg (rank n_matrices : ℕ) {a : ℚ} (ha : 0 ≤ a) :
    0 ≤ compute_fraction rank n_matrices a := by
  unfold compute_fraction
  have h1 : (0:ℚ) ≤ a * (n_matrices : ℚ) := by positivity
  exact div_nonneg (sq_nonneg _) h1

theorem binary_matrix_rank_chi_square_nonneg (s : List Char) (m q : ℕ) :
    0 ≤ binary_matrix_rank_chi_square s m q := by
  unfold binary_matrix_rank_chi_square
  have h0 : (0:ℚ) ≤ APPROXIMATIONS.getD 0 0 := by norm_num [APPROXIMATIONS]
  have h1 : (0:ℚ) ≤ APPROXIMATIONS.getD 1 0 := by norm_num [APPROXIMATIONS]
  have h2 : (0:ℚ) ≤ APPROXIMATIONS.getD 2 0 := by norm_num [APPROXIMATIONS]
  exact add_nonneg (add_nonneg (compute_fraction_nonneg _ _ h0)
    (compute_fraction_nonneg _ _ h1)) (compute_fraction_nonneg _ _ h2)

theorem evaluate_block_size_ok_iff {length block_size number_of_blocks : ℕ} :
    evaluate_block_size length block_size = .ok number_of_blocks
      ↔ (block_size < length ∧ length / 100 < block_size
          ∧ number_of_blocks = length / block_size
          ∧ length / block_size < 100) := by
  unfold evaluate_block_size RECOMMENDED_SIZE
  by_cases h1 : block_size ≥ length ∨ block_size ≤ length / 100
  · rw [if_pos h1]
    constructor
    · intro h
      exact absurd h (by simp)
    · rintro ⟨ha, hb, _, _⟩
      omega
  · rw [if_neg h1]
    push_neg at h1
    show (if length / block_size ≥ 100 then _ else _) = _ ↔ _
    by_cases h2 : length / block_size ≥ 100
    · rw [if_pos h2]
      constructor
      · intro h
        exact absurd h (by simp)
      · rintro ⟨_, _, _, hd⟩
        omega
    · rw [if_neg h2]
      constructor
      · intro h
        simp only [Except.ok.injEq] at h
        exact ⟨h1.1, h1.2, h.symm, by omega⟩
      · rintro ⟨_, _, hc, _⟩
        rw [hc]
  
theorem evaluate_test_params_ok_iff
    {length template_len number_of_blocks block_size : ℕ} :
    evaluate_test_params length template_len number_of_blocks = .ok block_size
      ↔ (2 ≤ template_len ∧ template_len ≤ 21 ∧ number_of_blocks ≤ 100
          ∧ block_size = length / number_of_blocks
          ∧ length / 100 < length / number_of_blocks) := by
  unfold evaluate_test_params TEMPLATE_LEN RECOMMENDED_SIZE
  by_cases h1 : ¬((2, 21).1 ≤ template_len ∧ template_len ≤ (2, 21).2)
  · rw [if_pos h1]
    constructor
    · intro h
      exact absurd h (by simp)
    · rintro ⟨ha, hb, _⟩
      exact absurd ⟨ha, hb⟩ h1
  · rw [if_neg h1]
    push_neg at h1
    simp only [not_not] at h1
    by_cases h2 : number_of_blocks > 100
    · rw [if_pos h2]
      constructor
      · intro h
        exact absurd h (by simp)
      · rintro ⟨_, _, hc, _⟩
        omega
    · rw [if_neg h2]
      show (if length / number_of_blocks ≤ length / 100 then _ else _) = _ ↔ _
      by_cases h3 : length / number_of_blocks ≤ length / 100
      · rw [if_pos h3]
        constructor
        · intro h
          exact absurd h (by simp)
        · rintro ⟨_, _, _, _, he⟩
          omega
      · rw [if_neg h3]
        constructor
        · intro h
          simp only [Except.ok.injEq] at h
          exact ⟨h1.1, h1.2, by omega, h.symm, by omega⟩
        · rintro ⟨_, _, _, hd, _⟩
          rw [hd]

theorem runs_pre_test_proportion_mem (s : List Char) :
    0 ≤ runs_pre_test_proportion s ∧ runs_pre_test_proportion s ≤ 1 := by
  unfold runs_pre_test_proportion
  constructor
  · positivity
  · rcases Nat.eq_zero_or_pos s.length with h | h
    · rw [h]
      norm_num
    · rw [div_le_one (by exact_mod_cast h)]
      exact_mod_cast count_ones_le_length s

theorem foldl_add_sum_bounds (l : List ℝ) (hmem : ∀ x ∈ l, 0 ≤ x ∧ x ≤ 1) :
    ∀ acc : ℝ, acc ≤ l.foldl (· + ·) acc
      ∧ l.foldl (· + ·) acc ≤ acc + l.length := by
  induction l with
  | nil => intro acc; simp
  | cons x rest ih =>
    intro acc
    rw [List.foldl_cons]
    have hx := hmem x (List.mem_cons_self _ _)
    have h := ih (fun y hy => hmem y (List.mem_cons_of_mem _ hy)) (acc + x)
    constructor
    · linarith [h.1]
    · have := h.2
      simp only [List.length_cons]
      push_cast
      linarith

section ErrorLemmas

variable {K : Type} [LinearOrderedField K]

theorem frequency_block_error {igamc : K → K → K} {s : List Char}
    {block_size : ℕ} (hv : ¬ ValidBits s) :
    frequency_block_perform_test igamc s block_size
      = .error "Bit string is either empty or contains invalid character(s)" := by
  unfold frequency_block_perform_test
  rcases evaluate_bit_string_cases s RECOMMENDED_SIZE with h | h
  · exact absurd ((evaluate_bit_string_ok_iff _ _).mp h) hv
  · rw [h]
    rfl

theorem frequency_block_error_params {igamc : K → K → K} {s : List Char}
    {block_size : ℕ} {e : String} (hv : ValidBits s)
    (hN : evaluate_block_size s.length block_size = .error e) :
    frequency_block_perform_test igamc s block_size = .error e := by
  unfold frequency_block_perform_test
  rw [(evaluate_bit_string_ok_iff s RECOMMENDED_SIZE).mpr hv, except_bind_ok]
  show (evaluate_block_size s.length block_size).bind _ = _
  rw [hN]
  rfl

theorem runs_error_invalid {erfc sqrtK : K → K} {s : List Char}
    (hv : ¬ ValidBits s) :
    runs_perform_test erfc sqrtK s
      = .error "Bit string is either empty or contains invalid character(s)" := by
  unfold runs_perform_test
  rcases evaluate_bit_string_cases s RECOMMENDED_SIZE with h | h
  · exact absurd ((evaluate_bit_string_ok_iff _ _).mp h) hv
  · rw [h]
    rfl

theorem longest_run_error_invalid {igamc : K → K → K} {s : List Char}
    (hv : ¬ ValidBits s) :
    longest_run_perform_test igamc s
      = .error "Bit string is either empty or contains invalid character(s)" := by
  unfold longest_run_perform_test
  rcases evaluate_bit_string_cases s MIN_LENGTH with h | h
  · exact absurd ((evaluate_bit_string_ok_iff _ _).mp h) hv
  · rw [h]
    rfl

theorem longest_run_error_config {igamc : K → K → K} {s : List Char} {e : String}
    (hv : ValidBits s) (hcfg : get_longest_run_config s.length = .error e) :
    longest_run_perform_test igamc s = .error e := by
  unfold longest_run_perform_test
  rw [(evaluate_bit_string_ok_iff s MIN_LENGTH).mpr hv, except_bind_ok]
  show (get_longest_run_config s.length).bind _ = _
  rw [hcfg]
  rfl

theorem binary_matrix_rank_error {expK : K → K} {s : List Char} {m q : ℕ}
    (hv : ¬ ValidBits s) :
    binary_matrix_rank_perform_test expK s m q
      = .error "Bit string is either empty or contains invalid character(s)" := by
  unfold binary_matrix_rank_perform_test
  rcases evaluate_bit_string_cases s RECOMMENDED_SIZE_MATRIX_TEST with h | h
  · exact absurd ((evaluate_bit_string_ok_iff _ _).mp h) hv
  · rw [h]
    rfl

theorem dft_spectral_error {erfc sqrtK lgK : K → K} {cosA sinA : ℚ → K}
    {s : List Char} (hv : ¬ ValidBits s) :
    dft_spectral_perform_test erfc sqrtK lgK cosA sinA s
      = .error "Bit string is either empty or contains invalid character(s)" := by
  unfold dft_spectral_perform_test
  rcases evaluate_bit_string_cases s RECOMMENDED_SIZE_DFT with h | h
  · exact absurd ((evaluate_bit_string_ok_iff _ _).mp h) hv
  · rw [h]
    rfl

theorem non_overlapping_template_error_invalid {igamc : K → K → K}
    {s : List Char} {m n : ℕ} {templates : List (List Char)}
    (hv : ¬ ValidBits s) :
    non_overlapping_template_perform_test igamc s m n templates
      = .error "Bit string is either empty or contains invalid character(s)" := by
  unfold non_overlapping_template_perform_test
  rcases evaluate_bit_string_cases s RECOMMENDED_SIZE with h | h
  · exact absurd ((evaluate_bit_string_ok_iff _ _).mp h) hv
  · rw [h]
    rfl

theorem non_overlapping_template_error_same {igamc : K → K → K}
    {s : List Char} {m n : ℕ} {templates : List (List Char)}
    (hv : ValidBits s)
    (hz : (s.all (fun c => c == '0') || s.all (fun c => c == '1')) = true) :
    non_overlapping_template_perform_test igamc s m n templates
      = .error "Given bit string either contains only zeros or only ones" := by
  unfold non_overlapping_template_perform_test
  rw [(evaluate_bit_string_ok_iff s RECOMMENDED_SIZE).mpr hv, except_bind_ok]
  show (if _ then _ else _) = _
  rw [if_pos hz]

theorem non_overlapping_template_error_params {igamc : K → K → K}
    {s : List Char} {m n : ℕ} {templates : List (List Char)} {e : String}
    (hv : ValidBits s)
    (hz : ¬ (s.all (fun c => c == '0') || s.all (fun c => c == '1')) = true)
    (hp : evaluate_test_params s.length m n = .error e) :
    non_overlapping_template_perform_test igamc s m n templates = .error e := by
  unfold non_overlapping_template_perform_test
  rw [(evaluate_bit_string_ok_iff s RECOMMENDED_SIZE).mpr hv, except_bind_ok]
  show (if _ then _ else _) = _
  rw [if_neg hz]
  show (evaluate_test_params s.length m n).bind _ = _
  rw [hp]
  rfl

end ErrorLemmas

theorem get_longest_run_config_ok_cases {n : ℕ} {cfg : LongestRunConfig}
    (h : get_longest_run_config n = .ok cfg) :
    cfg = ⟨MIN_SIZE_M, MIN_SIZE_N, MIN_THRESHOLDS, MIN_PI_VALUES⟩
    ∨ cfg = ⟨MID_SIZE_M, MID_SIZE_N, MID_THRESHOLDS, MID_PI_VALUES⟩
    ∨ cfg = ⟨MAX_SIZE_M, MAX_SIZE_N, MAX_THRESHOLDS, MAX_PI_VALUES⟩ := by
  unfold get_longest_run_config at h
  split_ifs at h <;> simp only [Except.ok.injEq] at h <;> try exact absurd h (by simp)
  · exact Or.inl h.symm
  · exact Or.inr (Or.inl h.symm)
  · exact Or.inr (Or.inr h.symm)

/-- Claim C4, amended: on every input where the engine returns `Ok`, the
p-value lies in `[0, 1]` for seven of the eight engines — monobit,
block-frequency, runs, longest run, binary matrix rank, DFT spectral, and
non-overlapping template matching (including its mean of per-template
p-values, for a non-empty catalog) — given that the external `erfc` maps
nonnegative arguments into `[0,1]` and the external regularized upper
incomplete gamma maps positive shape / nonnegative argument into `[0,1]`.
The exception is Cumulative Sums: its value `1 − sum₁ + sum₂` can exceed 1
(see the counterexample). -/
theorem c4_p_value_range_amended (erfc : ℝ → ℝ) (igamc : ℝ → ℝ → ℝ)
    (lgK : ℝ → ℝ) (cosA sinA : ℚ → ℝ)
    (herfc : ∀ x : ℝ, 0 ≤ x → 0 ≤ erfc x ∧ erfc x ≤ 1)
    (higamc : ∀ a x : ℝ, 0 < a → 0 ≤ x → 0 ≤ igamc a x ∧ igamc a x ≤ 1) :
    (∀ (s : List Char) (p : ℝ),
      frequency_monobit_perform_test erfc Real.sqrt s = .ok p → 0 ≤ p ∧ p ≤ 1)
    ∧ (∀ (s : List Char) (M : ℕ) (p : ℝ),
      frequency_block_perform_test igamc s M = .ok p → 0 ≤ p ∧ p ≤ 1)
    ∧ (∀ (s : List Char) (p : ℝ),
      runs_perform_test erfc Real.sqrt s = .ok p → 0 ≤ p ∧ p ≤ 1)
    ∧ (∀ (s : List Char) (p : ℝ),
      longest_run_perform_test igamc s = .ok p → 0 ≤ p ∧ p ≤ 1)
    ∧ (∀ (s : List Char) (M Q : ℕ) (p : ℝ),
      binary_matrix_rank_perform_test Real.exp s M Q = .ok p → 0 ≤ p ∧ p ≤ 1)
    ∧ (∀ (s : List Char) (p : ℝ),
      dft_spectral_perform_test erfc Real.sqrt lgK cosA sinA s = .ok p
        → 0 ≤ p ∧ p ≤ 1)
    ∧ (∀ (s : List Char) (m N : ℕ) (templates : List (List Char)) (p : ℝ),
      templates ≠ [] →
      non_overlapping_template_perform_test igamc s m N templates = .ok p
        → 0 ≤ p ∧ p ≤ 1) := by
  refine ⟨?_, ?_, ?_, ?_, ?_, ?_, ?_⟩
  · -- monobit
    intro s p h
    by_cases hv : ValidBits s
    · rw [frequency_monobit_ok erfc Real.sqrt hv] at h
      have hp : p = erfc (((compute_partial_sum s).natAbs : ℝ)
          / Real.sqrt (s.length : ℝ) / Real.sqrt 2) := by
        injection h.symm
      rw [hp]
      refine herfc _ ?_
      have h1 : (0:ℝ) ≤ ((compute_partial_sum s).natAbs : ℝ) := Nat.cast_nonneg _
      positivity
    · rw [frequency_monobit_error hv] at h
      exact absurd h (by simp)
  · -- block frequency
    intro s M p h
    by_cases hv : ValidBits s
    · cases hN : evaluate_block_size s.length M with
      | error e =>
        rw [frequency_block_error_params hv hN] at h
        exact absurd h (by simp)
      | ok N =>
        rw [frequency_block_ok igamc hv hN] at h
        by_cases hchi : frequency_block_chi_square M (compute_pi_i s N M) = 0
        · rw [if_pos hchi] at h
          have hp : p = 1 := by injection h.symm
          rw [hp]
          norm_num
        · rw [if_neg hchi] at h
          have hp : p = igamc ((N : ℝ) * (1/2))
              ((frequency_block_chi_square M (compute_pi_i s N M) : ℝ) * (1/2)) := by
            injection h.symm
          rw [hp]
          obtain ⟨h1, h2, h3, h4⟩ := evaluate_block_size_ok_iff.mp hN
          have hM : 0 < M := by omega
          have hN1 : 1 ≤ N := by
            rw [h3, Nat.one_le_div_iff hM]
            omega
          refine higamc _ _ ?_ ?_
          · have : (1:ℝ) ≤ (N : ℝ) := by exact_mod_cast hN1
            nlinarith
          · have := frequency_block_chi_square_nonneg M (compute_pi_i s N M)
            have hcast : (0:ℝ) ≤ ((frequency_block_chi_square M
                (compute_pi_i s N M) : ℚ) : ℝ) := by exact_mod_cast this
            nlinarith
    · rw [frequency_block_error hv] at h
      exact absurd h (by simp)
  · -- runs
    intro s p h
    by_cases hv : ValidBits s
    · by_cases hc : 2 / Real.sqrt (s.length : ℝ)
          ≤ |((runs_pre_test_proportion s : ℝ)) - 1/2|
      · obtain ⟨e, he⟩ := (runs_applicability_error_iff erfc s hv).mpr hc
        rw [he] at h
        exact absurd h (by simp)
      · rw [runs_ok erfc Real.sqrt hv hc] at h
        have hp : p = erfc (|(compute_v_n_observed s : ℝ)
            - 2 * (s.length : ℝ) * ((runs_pre_test_proportion s : ℝ)
              * (1 - (runs_pre_test_proportion s : ℝ)))|
          / (2 * Real.sqrt (2 * (s.length : ℝ))
              * ((runs_pre_test_proportion s : ℝ)
                * (1 - (runs_pre_test_proportion s : ℝ))))) := by
          injection h.symm
        rw [hp]
        refine herfc _ ?_
        obtain ⟨hq1, hq2⟩ := runs_pre_test_proportion_mem s
        have hr1 : (0:ℝ) ≤ (runs_pre_test_proportion s : ℝ) := by exact_mod_cast hq1
        have hr2 : (runs_pre_test_proportion s : ℝ) ≤ 1 := by exact_mod_cast hq2
        have hc0 : (0:ℝ) ≤ (runs_pre_test_proportion s : ℝ)
            * (1 - (runs_pre_test_proportion s : ℝ)) := by nlinarith
        have hd : (0:ℝ) ≤ 2 * Real.sqrt (2 * (s.length : ℝ))
            * ((runs_pre_test_proportion s : ℝ)
              * (1 - (runs_pre_test_proportion s : ℝ))) := by
          have := Real.sqrt_nonneg (2 * (s.length : ℝ))
          nlinarith
        exact div_nonneg (abs_nonneg _) hd
    · rw [runs_error_invalid hv] at h
      exact absurd h (by simp)
  · -- longest run
    intro s p h
    by_cases hv : ValidBits s
    · cases hcfg : get_longest_run_config s.length with
      | error e =>
        rw [longest_run_error_config hv hcfg] at h
        exact absurd h (by simp)
      | ok cfg =>
        rw [longest_run_ok igamc hv hcfg] at h
        have hp : p = igamc (((cfg.pi_values.length : ℝ) - 1) * (1/2))
            ((longest_run_chi_square_of s cfg : ℝ) * (1/2)) := by
          injection h.symm
        rw [hp]
        have hpi : (∀ q ∈ cfg.pi_values, 0 ≤ q) ∧ 4 ≤ cfg.pi_values.length := by
          rcases get_longest_run_config_ok_cases hcfg with hc | hc | hc <;>
            rw [hc] <;>
            exact ⟨by intro q hq; simp [MIN_PI_VALUES, MID_PI_VALUES, MAX_PI_VALUES] at hq <;>
              rcases hq with h | h | h | h | h | h | h <;> norm_num [h], by norm_num [MIN_PI_VALUES, MID_PI_VALUES, MAX_PI_VALUES]⟩
        refine higamc _ _ ?_ ?_
        · have h4 : (4:ℝ) ≤ (cfg.pi_values.length : ℝ) := by exact_mod_cast hpi.2
          nlinarith
        · have := longest_run_chi_square_nonneg
            (calculate_vi_values (longest_run_counts s cfg) cfg.thresholds)
            cfg.number_of_blocks cfg.pi_values hpi.1
          have hcast : (0:ℝ) ≤ ((longest_run_chi_square_of s cfg : ℚ) : ℝ) := by
            unfold longest_run_chi_square_of
            exact_mod_cast this
          nlinarith
    · rw [longest_run_error_invalid hv] at h
      exact absurd h (by simp)
  · -- binary matrix rank
    intro s M Q p h
    by_cases hv : ValidBits s
    · rw [binary_matrix_rank_ok Real.exp hv M Q] at h
      have hp : p = Real.exp (-(binary_matrix_rank_chi_square s M Q : ℝ) * (1/2)) := by
        injection h.symm
      rw [hp]
      constructor
      · exact le_of_lt (Real.exp_pos _)
      · rw [Real.exp_le_one_iff]
        have := binary_matrix_rank_chi_square_nonneg s M Q
        have hcast : (0:ℝ) ≤ ((binary_matrix_rank_chi_square s M Q : ℚ) : ℝ) := by
          exact_mod_cast this
        nlinarith
    · rw [binary_matrix_rank_error hv] at h
      exact absurd h (by simp)
  · -- dft spectral
    intro s p h
    by_cases hv : ValidBits s
    · rw [dft_spectral_ok erfc Real.sqrt lgK cosA sinA hv] at h
      have hp : p = erfc (|((dft_n1 Real.sqrt cosA sinA s
            (dft_height_threshold Real.sqrt lgK s.length) : ℝ)
            - (N_0_CONSTANT : ℝ) * (s.length : ℝ))
          / Real.sqrt ((s.length : ℝ) * (NORMALIZED_DIFF_CONSTANT : ℝ))|
        / Real.sqrt 2) := by
        injection h.symm
      rw [hp]
      refine herfc _ ?_
      exact div_nonneg (abs_nonneg _) (Real.sqrt_nonneg _)
    · rw [dft_spectral_error hv] at h
      exact absurd h (by simp)
  · -- non-overlapping templates
    intro s m N templates p hne h
    by_cases hv : ValidBits s
    · by_cases hz : (s.all (fun c => c == '0') || s.all (fun c => c == '1')) = true
      · rw [non_overlapping_template_error_same hv hz] at h
        exact absurd h (by simp)
      · cases hbs : evaluate_test_params s.length m N with
        | error e =>
          rw [non_overlapping_template_error_params hv hz hbs] at h
          exact absurd h (by simp)
        | ok block_size =>
          rw [non_overlapping_template_ok igamc templates hv hz hbs] at h
          obtain ⟨h1, h2, h3, h4, h5⟩ := evaluate_test_params_ok_iff.mp hbs
          have hN1 : 1 ≤ N := by
            rcases Nat.eq_zero_or_pos N with h0 | h0
            · rw [h0] at h5
              simp at h5
            · omega
          have hbs1 : 1 ≤ block_size := by omega
          have hvar := non_overlapping_variance_pos hbs1 h1
          have hmem : ∀ x ∈ templates.map
              (fun t => template_p_value (K := ℝ) igamc N
                (template_chi_square
                  (non_overlapping_counts s block_size N t)
                  (non_overlapping_mean block_size m)
                  (non_overlapping_variance block_size m))),
              0 ≤ x ∧ x ≤ 1 := by
            intro x hx
            rcases List.mem_map.mp hx with ⟨t, _, hteq⟩
            rw [← hteq]
            unfold template_p_value
            by_cases hchi : template_chi_square
                (non_overlapping_counts s block_size N t)
                (non_overlapping_mean block_size m)
                (non_overlapping_variance block_size m) = 0
            · rw [if_pos hchi]
              norm_num
            · rw [if_neg hchi]
              refine higamc _ _ ?_ ?_
              · have : (1:ℝ) ≤ (N : ℝ) := by exact_mod_cast hN1
                nlinarith
              · have := template_chi_square_nonneg
                  (non_overlapping_counts s block_size N t)
                  (non_overlapping_mean block_size m)
                  (non_overlapping_variance block_size m) (le_of_lt hvar)
                have hcast : (0:ℝ) ≤ ((template_chi_square
                    (non_overlapping_counts s block_size N t)
                    (non_overlapping_mean block_size m)
                    (non_overlapping_variance block_size m) : ℚ) : ℝ) := by
                  exact_mod_cast this
                nlinarith
          set ps := templates.map
            (fun t => template_p_value (K := ℝ) igamc N
              (template_chi_square
                (non_overlapping_counts s block_size N t)
                (non_overlapping_mean block_size m)
                (non_overlapping_variance block_size m))) with hps
          have hp : p = (ps.foldl (· + ·) 0) / (ps.length : ℝ) := by
            injection h.symm
          have hlen : 1 ≤ ps.length := by
            rw [hps]
            rcases templates with _ | ⟨t, ts⟩
            · exact absurd rfl hne
            · simp
          have hbounds := foldl_add_sum_bounds ps hmem 0
          have hlen' : (0:ℝ) < (ps.length : ℝ) := by exact_mod_cast hlen
          rw [hp]
          constructor
          · exact div_nonneg (by linarith [hbounds.1]) (le_of_lt hlen')
          · rw [div_le_one hlen']
            linarith [hbounds.2]
    · rw [non_overlapping_template_error_invalid hv] at h
      exact absurd h (by simp)

/-- Witness for C4 amended: instantiating `erfc` and `igamc` with the constant
zero functions (which satisfy both range hypotheses) and running the monobit
engine on the concrete valid input "10" yields the in-range p-value 0. -/
theorem c4_p_value_range_amended_witness : (0:ℝ) ≤ 0 ∧ (0:ℝ) ≤ 1 :=
  (c4_p_value_range_amended (fun _ => 0) (fun _ _ => 0) (fun _ => 0)
      (fun _ => 0) (fun _ => 0)
      (fun _ _ => ⟨le_refl 0, zero_le_one⟩)
      (fun _ _ _ _ => ⟨le_refl 0, zero_le_one⟩)).1
    ("10".toList) 0
    (by rw [frequency_monobit_ok (fun _ => (0:ℝ)) Real.sqrt (by decide)])

/-! ## Constant sequences under the engines (claim C3) -/

/-- The loop body of `cusum_max_sum_z`, named for the induction on constant
sequences (definitionally the inline closure of the definition). -/
def cusum_step (p : ℤ × ℤ) (bit : Char) : ℤ × ℤ :=
  let current := if bit = '1' then p.1 + 1 else p.1 - 1
  (current, max p.2 |current|)

theorem cusum_max_sum_z_eq_foldl_step (bits : List Char) :
    cusum_max_sum_z bits = (bits.foldl cusum_step (0, 0)).2 := rfl

theorem cusum_fold_replicate_zero (n : ℕ) :
    ∀ j : ℤ, 0 ≤ j →
      (List.replicate n '0').foldl cusum_step (-j, j) = (-j - n, j + n) := by
  induction n with
  | zero =>
    intro j hj
    simp
  | succ n ih =>
    intro j hj
    rw [List.replicate_succ, List.foldl_cons]
    have hstep : cusum_step (-j, j) '0' = (-(j+1), j+1) := by
      unfold cusum_step
      show ((if ('0':Char) = '1' then -j + 1 else -j - 1),
        max j |if ('0':Char) = '1' then -j + 1 else -j - 1|) = (-(j+1), j+1)
      rw [if_neg (by decide)]
      have habs : |(-j : ℤ) - 1| = j + 1 := by
        rw [abs_of_nonpos (by omega)]
        ring
      rw [habs, max_eq_right (by omega), Prod.mk.injEq]
      exact ⟨by ring, rfl⟩
    rw [hstep, ih (j+1) (by omega), Prod.mk.injEq]
    push_cast
    exact ⟨by ring, by ring⟩

theorem cusum_fold_replicate_one (n : ℕ) :
    ∀ j : ℤ, 0 ≤ j →
      (List.replicate n '1').foldl cusum_step (j, j) = (j + n, j + n) := by
  induction n with
  | zero =>
    intro j hj
    simp
  | succ n ih =>
    intro j hj
    rw [List.replicate_succ, List.foldl_cons]
    have hstep : cusum_step (j, j) '1' = (j+1, j+1) := by
      unfold cusum_step
      show ((if ('1':Char) = '1' then j + 1 else j - 1),
        max j |if ('1':Char) = '1' then j + 1 else j - 1|) = (j+1, j+1)
      rw [if_pos rfl]
      rw [abs_of_nonneg (by omega), max_eq_right (by omega)]
    rw [hstep, ih (j+1) (by omega), Prod.mk.injEq]
    push_cast
    exact ⟨by ring, by ring⟩

theorem cusum_max_sum_z_replicate_zero (L : ℕ) :
    cusum_max_sum_z (List.replicate L '0') = (L : ℤ) := by
  rw [cusum_max_sum_z_eq_foldl_step]
  have h := cusum_fold_replicate_zero L 0 le_rfl
  simp only [neg_zero] at h
  rw [h]
  ring

theorem cusum_max_sum_z_replicate_one (L : ℕ) :
    cusum_max_sum_z (List.replicate L '1') = (L : ℤ) := by
  rw [cusum_max_sum_z_eq_foldl_step]
  have h := cusum_fold_replicate_one L 0 le_rfl
  rw [h]
  ring

theorem cusum_limits_self {L : ℕ} (hL : 1 ≤ L) :
    cusum_limits L ((L : ℕ) : ℤ) = (0, 0, -1) := by
  unfold cusum_limits qtrunc
  have hd : (((L:ℤ) : ℚ)) = ((L:ℕ) : ℚ) := by push_cast; ring
  rw [hd, div_self (Nat.cast_ne_zero.mpr (by omega))]
  norm_num
  rw [Int.ceil_eq_iff] <;> norm_num

theorem chi_fold_const (f : ℕ → ℚ) :
    ∀ (n : ℕ), (∀ i < n, (f i - 1/2)^2 = 1/4) →
      ∀ a : ℚ, ((List.range n).map f).foldl (fun acc p => acc + (p - 1/2)^2) a
        = a + n * (1/4) := by
  intro n
  induction n with
  | zero =>
    intro _ a
    simp
  | succ n ih =>
    intro h a
    rw [List.range_succ, List.map_append, List.foldl_append,
      ih (fun i hi => h i (by omega)) a]
    show (a + n * (1/4)) + (f n - 1/2)^2 = a + ((n+1 : ℕ) : ℚ) * (1/4)
    rw [h n (by omega)]
    push_cast
    ring

theorem frequency_block_chi_replicate_zero (L N M : ℕ) :
    frequency_block_chi_square M (compute_pi_i (List.replicate L '0') N M)
      = (M : ℚ) * N := by
  unfold frequency_block_chi_square compute_pi_i
  rw [chi_fold_const _ N ?_ 0]
  · ring
  · intro i _
    rw [List.drop_replicate, List.take_replicate, count_ones_replicate_zero]
    norm_num

theorem frequency_block_chi_replicate_one (L N M : ℕ) (hM : 0 < M)
    (hNM : N ≤ L / M) :
    frequency_block_chi_square M (compute_pi_i (List.replicate L '1') N M)
      = (M : ℚ) * N := by
  unfold frequency_block_chi_square compute_pi_i
  rw [chi_fold_const _ N ?_ 0]
  · ring
  · intro i hi
    rw [List.drop_replicate, List.take_replicate, count_ones_replicate_one]
    have hfull : M ≤ L - i * M := by
      have h1 : (i + 1) * M ≤ L := by
        rw [← Nat.le_div_iff_mul_le hM]
        omega
      have h2 : (i + 1) * M = i * M + M := by ring
      omega
    rw [min_eq_left hfull, div_self (Nat.cast_ne_zero.mpr (by omega))]
    norm_num

theorem cusum_replicate_eval_fwd (phi : ℝ → ℝ) {L : ℕ} (hL : 1 ≤ L) {c : Char}
    (hz : cusum_max_sum_z (List.replicate L c) = (L : ℤ))
    (hv : ValidBits (List.replicate L c)) :
    cumulative_sums_perform_test phi Real.sqrt (List.replicate L c) .forward
      = .ok (1 - (phi ((L:ℝ) / Real.sqrt (L:ℝ)) - phi (-((L:ℝ) / Real.sqrt (L:ℝ))))
          + ((phi (-((L:ℝ) / Real.sqrt (L:ℝ)))
              - phi (-(3 * ((L:ℝ) / Real.sqrt (L:ℝ)))))
            + (phi (3 * ((L:ℝ) / Real.sqrt (L:ℝ)))
              - phi ((L:ℝ) / Real.sqrt (L:ℝ))))) := by
  unfold cumulative_sums_perform_test
  rw [(evaluate_bit_string_ok_iff _ RECOMMENDED_SIZE).mpr hv, except_bind_ok]
  show (let new_bit_string := List.replicate L c
    let max_sum_z := cusum_max_sum_z new_bit_string
    let p := cusum_limits (List.replicate L c).length max_sum_z
    let upper_limit := p.1
    let lower_limit_1 := p.2.1
    let lower_limit_2 := p.2.2
    let denominator : ℝ := Real.sqrt ((List.replicate L c).length : ℝ)
    let sum_1 : ℝ := ∑ k in Finset.Icc lower_limit_1 upper_limit,
      (phi ((4 * (k : ℝ) + 1) * (max_sum_z : ℝ) / denominator)
        - phi ((4 * (k : ℝ) - 1) * (max_sum_z : ℝ) / denominator))
    let sum_2 : ℝ := ∑ k in Finset.Icc lower_limit_2 upper_limit,
      (phi ((4 * (k : ℝ) + 3) * (max_sum_z : ℝ) / denominator)
        - phi ((4 * (k : ℝ) + 1) * (max_sum_z : ℝ) / denominator))
    pure (1 - sum_1 + sum_2)) = _
  simp only [hz]
  rw [List.length_replicate, cusum_limits_self hL]
  simp only []
  rw [show Finset.Icc (0:ℤ) 0 = {0} from Finset.Icc_self 0,
    show Finset.Icc (-1:ℤ) 0 = {-1, 0} from by decide]
  rw [Finset.sum_singleton, Finset.sum_pair (by norm_num : (-1 : ℤ) ≠ 0)]
  show Except.ok _ = _
  congr 1
  push_cast
  rw [show (4 * (0:ℝ) + 1) * (L:ℝ) / Real.sqrt (L:ℝ)
      = (L:ℝ) / Real.sqrt (L:ℝ) by ring,
    show (4 * (0:ℝ) - 1) * (L:ℝ) / Real.sqrt (L:ℝ)
      = -((L:ℝ) / Real.sqrt (L:ℝ)) by ring,
    show (4 * (-1:ℝ) + 3) * (L:ℝ) / Real.sqrt (L:ℝ)
      = -((L:ℝ) / Real.sqrt (L:ℝ)) by ring,
    show (4 * (-1:ℝ) + 1) * (L:ℝ) / Real.sqrt (L:ℝ)
      = -(3 * ((L:ℝ) / Real.sqrt (L:ℝ))) by ring,
    show (4 * (0:ℝ) + 3) * (L:ℝ) / Real.sqrt (L:ℝ)
      = 3 * ((L:ℝ) / Real.sqrt (L:ℝ)) by ring]

theorem cusum_replicate_eval (phi : ℝ → ℝ) {L : ℕ} (hL : 1 ≤ L) {c : Char}
    (hz : cusum_max_sum_z (List.replicate L c) = (L : ℤ))
    (hv : ValidBits (List.replicate L c)) (mode : Mode) :
    cumulative_sums_perform_test phi Real.sqrt (List.replicate L c) mode
      = .ok (1 - (phi ((L:ℝ) / Real.sqrt (L:ℝ)) - phi (-((L:ℝ) / Real.sqrt (L:ℝ))))
          + ((phi (-((L:ℝ) / Real.sqrt (L:ℝ)))
              - phi (-(3 * ((L:ℝ) / Real.sqrt (L:ℝ)))))
            + (phi (3 * ((L:ℝ) / Real.sqrt (L:ℝ)))
              - phi ((L:ℝ) / Real.sqrt (L:ℝ))))) := by
  cases mode with
  | forward => exact cusum_replicate_eval_fwd phi hL hz hv
  | backward =>
    have hrev : cumulative_sums_perform_test phi Real.sqrt
        (List.replicate L c) .backward
      = cumulative_sums_perform_test phi Real.sqrt
        ((List.replicate L c).reverse) .forward := by
      unfold cumulative_sums_perform_test
      rw [evaluate_bit_string_reverse]
    rw [hrev, List.reverse_replicate]
    exact cusum_replicate_eval_fwd phi hL hz hv

theorem getD_replicate_of_lt {L j : ℕ} (c d : Char) (hj : j < L) :
    (List.replicate L c).getD j d = c := by
  rw [List.getD_eq_getElem?_getD, List.getElem?_replicate, if_pos hj]
  rfl

theorem dft_modulus_replicate (sqrtK : ℝ → ℝ) (cosA sinA : ℚ → ℝ) (L k : ℕ) :
    dft_modulus sqrtK cosA sinA (List.replicate L '0') k
      = dft_modulus sqrtK cosA sinA (List.replicate L '1') k := by
  unfold dft_modulus
  congr 1
  have hre : dft_bin_re cosA (List.replicate L '0') k
      = -dft_bin_re cosA (List.replicate L '1') k := by
    unfold dft_bin_re
    rw [List.length_replicate, List.length_replicate, ← Finset.sum_neg_distrib]
    refine Finset.sum_congr rfl ?_
    intro j hj
    have hjL : j < L := Finset.mem_range.mp hj
    rw [getD_replicate_of_lt _ _ hjL, getD_replicate_of_lt _ _ hjL]
    rw [if_neg (by decide), if_pos rfl]
    ring
  have him : dft_bin_im sinA (List.replicate L '0') k
      = -dft_bin_im sinA (List.replicate L '1') k := by
    unfold dft_bin_im
    rw [List.length_replicate, List.length_replicate, neg_neg,
      ← Finset.sum_neg_distrib]
    refine Finset.sum_congr rfl ?_
    intro j hj
    have hjL : j < L := Finset.mem_range.mp hj
    rw [getD_replicate_of_lt _ _ hjL, getD_replicate_of_lt _ _ hjL]
    rw [if_neg (by decide), if_pos rfl]
    ring
  rw [hre, him]
  ring

theorem dft_n1_replicate (sqrtK : ℝ → ℝ) (cosA sinA : ℚ → ℝ) (L : ℕ) (T : ℝ) :
    dft_n1 sqrtK cosA sinA (List.replicate L '0') T
      = dft_n1 sqrtK cosA sinA (List.replicate L '1') T := by
  unfold dft_n1
  rw [List.length_replicate, List.length_replicate]
  congr 1
  refine List.filter_congr ?_
  intro k _
  rw [dft_modulus_replicate]

theorem compute_partial_sum_replicate_zero (L : ℕ) :
    (compute_partial_sum (List.replicate L '0')).natAbs = L := by
  rw [compute_partial_sum_eq, count_ones_replicate_zero, List.length_replicate]
  push_cast
  omega

theorem compute_partial_sum_replicate_one (L : ℕ) :
    (compute_partial_sum (List.replicate L '1')).natAbs = L := by
  rw [compute_partial_sum_eq, count_ones_replicate_one, List.length_replicate]
  omega

theorem fifty_le_blocks {L M N : ℕ} (hL : 100 ≤ L)
    (hN : evaluate_block_size L M = .ok N) : 2 ≤ M ∧ 1 ≤ N ∧ 50 ≤ M * N := by
  obtain ⟨h1, h2, h3, h4⟩ := evaluate_block_size_ok_iff.mp hN
  have hM : 0 < M := by omega
  have hM2 : 2 ≤ M := by
    have : 1 ≤ L / 100 := by omega
    omega
  have hN1 : 1 ≤ N := by
    rw [h3, Nat.one_le_div_iff hM]
    omega
  have hmod := Nat.div_add_mod L M
  have hmlt : L % M < M := Nat.mod_lt _ hM
  have hMN : M * N = L - L % M := by
    rw [h3]
    omega
  have hNself : M ≤ M * N := Nat.le_mul_of_pos_right M hN1
  refine ⟨hM2, hN1, ?_⟩
  omega

/-- Claim C3, amended: for every length `L ≥ 100` the all-zeros and all-ones
sequences yield identical results under the Monobit, Block-Frequency,
Cumulative-Sums and DFT-Spectral engines (for every choice of the external
functions), while the Runs engine rejects both as not applicable; and the
p-value on the all-zeros sequence is below `0.01` for Monobit (whenever the
external `erfc` is antitone with `erfc 2 < 1/100`), Block-Frequency (whenever
`igamc a x < 1/100` for `0 < a`, `2a ≤ x`, `25 ≤ x` — true of the regularized
upper incomplete gamma) and Cumulative Sums (whenever `phi` is a monotone
`[0,1]`-valued CDF with `phi 10 ≥ 0.999` and `phi (−10) ≤ 0.001`). The
original claim's universal bit-flip symmetry fails for the Longest-Run engine
(see the counterexample). -/
theorem c3_constant_sequences_amended (L M : ℕ) (mode : Mode)
    (erfc phi : ℝ → ℝ) (igamc : ℝ → ℝ → ℝ) (lgK : ℝ → ℝ) (cosA sinA : ℚ → ℝ)
    (hL : 100 ≤ L)
    (herfc_anti : Antitone erfc) (herfc2 : erfc 2 < 1/100)
    (higamc : ∀ a x : ℝ, 0 < a → 2 * a ≤ x → 25 ≤ x → igamc a x < 1/100)
    (hphi_mono : Monotone phi)
    (hphi_hi : 999/1000 ≤ phi 10) (hphi_lo : phi (-10) ≤ 1/1000)
    (hphi_range : ∀ x : ℝ, 0 ≤ phi x ∧ phi x ≤ 1) :
    (frequency_monobit_perform_test erfc Real.sqrt (List.replicate L '0')
        = frequency_monobit_perform_test erfc Real.sqrt (List.replicate L '1'))
    ∧ (frequency_block_perform_test igamc (List.replicate L '0') M
        = frequency_block_perform_test igamc (List.replicate L '1') M)
    ∧ (cumulative_sums_perform_test phi Real.sqrt (List.replicate L '0') mode
        = cumulative_sums_perform_test phi Real.sqrt (List.replicate L '1') mode)
    ∧ (dft_spectral_perform_test erfc Real.sqrt lgK cosA sinA
          (List.replicate L '0')
        = dft_spectral_perform_test erfc Real.sqrt lgK cosA sinA
          (List.replicate L '1'))
    ∧ (∃ e, runs_perform_test erfc Real.sqrt (List.replicate L '0') = .error e)
    ∧ (∃ e, runs_perform_test erfc Real.sqrt (List.replicate L '1') = .error e)
    ∧ (∀ p : ℝ, frequency_monobit_perform_test erfc Real.sqrt
          (List.replicate L '0') = .ok p → p < 1/100)
    ∧ (∀ q : ℝ, frequency_block_perform_test igamc (List.replicate L '0') M
          = .ok q → q < 1/100)
    ∧ (∀ r : ℝ, cumulative_sums_perform_test phi Real.sqrt
          (List.replicate L '0') mode = .ok r → r < 1/100) := by
  have hL1 : 1 ≤ L := by omega
  have hv0 := validBits_replicate_zero hL1
  have hv1 := validBits_replicate_one hL1
  have hsqrt10 : (10:ℝ) ≤ Real.sqrt (L:ℝ) := by
    rw [show (10:ℝ) = Real.sqrt 100 from by
      rw [show (100:ℝ) = 10^2 by norm_num, Real.sqrt_sq (by norm_num)]]
    exact Real.sqrt_le_sqrt (by exact_mod_cast hL)
  have hsqrtpos : (0:ℝ) < Real.sqrt (L:ℝ) := lt_of_lt_of_le (by norm_num) hsqrt10
  have hdiv : (L:ℝ) / Real.sqrt (L:ℝ) = Real.sqrt (L:ℝ) := Real.div_sqrt
  refine ⟨?_, ?_, ?_, ?_, ?_, ?_, ?_, ?_, ?_⟩
  · -- monobit identity
    rw [frequency_monobit_ok erfc Real.sqrt hv0,
      frequency_monobit_ok erfc Real.sqrt hv1,
      compute_partial_sum_replicate_zero, compute_partial_sum_replicate_one,
      List.length_replicate, List.length_replicate]
  · -- block-frequency identity
    cases hbs : evaluate_block_size L M with
    | error e =>
      have hbs0 : evaluate_block_size (List.replicate L '0').length M
          = .error e := by rw [List.length_replicate]; exact hbs
      have hbs1 : evaluate_block_size (List.replicate L '1').length M
          = .error e := by rw [List.length_replicate]; exact hbs
      rw [frequency_block_error_params hv0 hbs0,
        frequency_block_error_params hv1 hbs1]
    | ok N =>
      have hbs0 : evaluate_block_size (List.replicate L '0').length M
          = .ok N := by rw [List.length_replicate]; exact hbs
      have hbs1 : evaluate_block_size (List.replicate L '1').length M
          = .ok N := by rw [List.length_replicate]; exact hbs
      obtain ⟨hM2, hN1, hMN⟩ := fifty_le_blocks hL hbs
      have hNLM : N ≤ L / M := by
        obtain ⟨_, _, h3, _⟩ := evaluate_block_size_ok_iff.mp hbs
        omega
      rw [frequency_block_ok igamc hv0 hbs0, frequency_block_ok igamc hv1 hbs1,
        frequency_block_chi_replicate_zero L N M,
        frequency_block_chi_replicate_one L N M (by omega) hNLM]
  · -- cumulative sums identity
    rw [cusum_replicate_eval phi hL1 (cusum_max_sum_z_replicate_zero L) hv0 mode,
      cusum_replicate_eval phi hL1 (cusum_max_sum_z_replicate_one L) hv1 mode]
  · -- DFT identity
    rw [dft_spectral_ok erfc Real.sqrt lgK cosA sinA hv0,
      dft_spectral_ok erfc Real.sqrt lgK cosA sinA hv1,
      List.length_replicate, List.length_replicate, dft_n1_replicate]
  · -- runs rejects all zeros
    refine (runs_applicability_error_iff erfc _ hv0).mpr ?_
    rw [List.length_replicate]
    have hp : runs_pre_test_proportion (List.replicate L '0') = 0 := by
      unfold runs_pre_test_proportion
      rw [count_ones_replicate_zero]
      norm_num
    rw [hp]
    push_cast
    rw [abs_sub_comm, sub_zero, abs_of_nonneg (by norm_num : (0:ℝ) ≤ 1/2)]
    have h1 : 2 / Real.sqrt (L:ℝ) ≤ 2 / 10 :=
      div_le_div_of_nonneg_left (by norm_num) (by norm_num) hsqrt10
    linarith
  · -- runs rejects all ones
    refine (runs_applicability_error_iff erfc _ hv1).mpr ?_
    rw [List.length_replicate]
    have hp : runs_pre_test_proportion (List.replicate L '1') = 1 := by
      unfold runs_pre_test_proportion
      rw [count_ones_replicate_one, List.length_replicate]
      exact div_self (Nat.cast_ne_zero.mpr (by omega))
    rw [hp]
    push_cast
    rw [show (1:ℝ) - 1/2 = 1/2 by norm_num,
      abs_of_nonneg (by norm_num : (0:ℝ) ≤ 1/2)]
    have h1 : 2 / Real.sqrt (L:ℝ) ≤ 2 / 10 :=
      div_le_div_of_nonneg_left (by norm_num) (by norm_num) hsqrt10
    linarith
  · -- monobit p-value below 0.01
    intro p h
    rw [frequency_monobit_ok erfc Real.sqrt hv0,
      compute_partial_sum_replicate_zero, List.length_replicate] at h
    injection h with hp
    rw [← hp, hdiv]
    have h2le : Real.sqrt 2 ≤ 2 := by
      nlinarith [Real.sq_sqrt (show (0:ℝ) ≤ 2 by norm_num), Real.sqrt_nonneg 2]
    have h2pos : (0:ℝ) < Real.sqrt 2 := Real.sqrt_pos.mpr (by norm_num)
    have harg : (2:ℝ) ≤ Real.sqrt (L:ℝ) / Real.sqrt 2 := by
      have hup : Real.sqrt (L:ℝ) / 2 ≤ Real.sqrt (L:ℝ) / Real.sqrt 2 :=
        div_le_div_of_nonneg_left (le_of_lt hsqrtpos) h2pos h2le
      linarith
    calc erfc (Real.sqrt (L:ℝ) / Real.sqrt 2) ≤ erfc 2 := herfc_anti harg
      _ < 1/100 := herfc2
  · -- block-frequency p-value below 0.01
    intro q h
    cases hbs : evaluate_block_size L M with
    | error e =>
      have hbs0 : evaluate_block_size (List.replicate L '0').length M
          = .error e := by rw [List.length_replicate]; exact hbs
      rw [frequency_block_error_params hv0 hbs0] at h
      exact absurd h (by simp)
    | ok N =>
      have hbs0 : evaluate_block_size (List.replicate L '0').length M
          = .ok N := by rw [List.length_replicate]; exact hbs
      obtain ⟨hM2, hN1, hMN⟩ := fifty_le_blocks hL hbs
      rw [frequency_block_ok igamc hv0 hbs0,
        frequency_block_chi_replicate_zero L N M] at h
      have hpos : 0 < M * N := Nat.mul_pos (by omega) (by omega)
      have hchi_ne : ((M:ℚ) * N) ≠ 0 := by
        have hc : ((M:ℚ) * N) = ((M * N : ℕ) : ℚ) := by push_cast; ring
        rw [hc]
        exact Nat.cast_ne_zero.mpr (by omega)
      rw [if_neg hchi_ne] at h
      injection h with hq
      rw [← hq]
      have hcast : ((((M:ℚ) * N : ℚ)) : ℝ) = (M:ℝ) * N := by push_cast; ring
      rw [hcast]
      have hM2' : (2:ℝ) ≤ (M:ℝ) := by exact_mod_cast hM2
      have hN1' : (1:ℝ) ≤ (N:ℝ) := by exact_mod_cast hN1
      have h50 : (50:ℝ) ≤ (M:ℝ) * N := by
        have hc : ((50:ℕ):ℝ) ≤ ((M * N : ℕ):ℝ) := by exact_mod_cast hMN
        push_cast at hc
        linarith
      refine higamc _ _ ?_ ?_ ?_
      · nlinarith
      · nlinarith
      · linarith
  · -- cumulative sums p-value below 0.01
    intro r h
    rw [cusum_replicate_eval phi hL1 (cusum_max_sum_z_replicate_zero L)
      hv0 mode] at h
    injection h with hr
    rw [← hr, hdiv]
    have hA : phi 10 ≤ phi (Real.sqrt (L:ℝ)) := hphi_mono hsqrt10
    have hB : phi (-Real.sqrt (L:ℝ)) ≤ phi (-10) :=
      hphi_mono (by linarith)
    have hC : phi (3 * Real.sqrt (L:ℝ)) ≤ 1 :=
      (hphi_range (3 * Real.sqrt (L:ℝ))).2
    have hD : 0 ≤ phi (-(3 * Real.sqrt (L:ℝ))) :=
      (hphi_range (-(3 * Real.sqrt (L:ℝ)))).1
    linarith

/-- Witness for C3 amended: at `L = 100`, `M = 10`, forward mode, with step
functions for `erfc`, `phi` and the zero function for `igamc` (all satisfying
the hypotheses), the monobit engine returns the same result on the 100-bit
all-zeros and all-ones sequences. -/
theorem c3_constant_sequences_amended_witness :
    frequency_monobit_perform_test (fun x => if x < 2 then (1:ℝ) else 0)
        Real.sqrt (List.replicate 100 '0')
      = frequency_monobit_perform_test (fun x => if x < 2 then (1:ℝ) else 0)
        Real.sqrt (List.replicate 100 '1') :=
  (c3_constant_sequences_amended 100 10 .forward
    (fun x => if x < 2 then (1:ℝ) else 0)
    (fun x => if x < 0 then (0:ℝ) else 1)
    (fun _ _ => 0) (fun _ => 0) (fun _ => 0) (fun _ => 0)
    (by norm_num)
    (by
      intro a b hab
      show (if b < 2 then (1:ℝ) else 0) ≤ (if a < 2 then (1:ℝ) else 0)
      split_ifs <;> linarith)
    (by norm_num)
    (fun _ _ _ _ _ => by norm_num)
    (by
      intro a b hab
      show (if a < 0 then (0:ℝ) else 1) ≤ (if b < 0 then (0:ℝ) else 1)
      split_ifs <;> linarith)
    (by norm_num)
    (by norm_num)
    (by
      intro x
      show 0 ≤ (if x < 0 then (0:ℝ) else 1)
        ∧ (if x < 0 then (0:ℝ) else 1) ≤ 1
      split_ifs <;> norm_num)).1

set_option maxRecDepth 40000 in
/-- Claim C3, counterexample: at length 128 (≥ 100) the Longest Run of Ones
engine does **not** treat the all-zeros and all-ones sequences identically:
the all-zeros chi-square is `3216/55` while the all-ones chi-square is
`208/3`, so with `igamc` instantiated to the projection on its second
argument the two p-values `chi²/2` differ. Any injective-in-`x` `igamc`
(such as the true regularized upper incomplete gamma) therefore separates
the two sequences, refuting the universal bit-flip symmetry. -/
theorem c3_bit_flip_counterexample :
    (100:ℕ) ≤ 128
    ∧ longest_run_perform_test ((fun _ x => x) : ℚ → ℚ → ℚ)
        (List.replicate 128 '0') = .ok (1608/55)
    ∧ longest_run_perform_test ((fun _ x => x) : ℚ → ℚ → ℚ)
        (List.replicate 128 '1') = .ok (104/3)
    ∧ (1608/55 : ℚ) ≠ (104/3 : ℚ) := by
  have hv0 : ValidBits (List.replicate 128 '0') :=
    validBits_replicate_zero (by norm_num)
  have hv1 : ValidBits (List.replicate 128 '1') :=
    validBits_replicate_one (by norm_num)
  have hcfg0 : get_longest_run_config (List.replicate 128 '0').length
      = .ok ⟨8, 16, (1, 4), MIN_PI_VALUES⟩ := by
    rw [List.length_replicate]
    rfl
  have hcfg1 : get_longest_run_config (List.replicate 128 '1').length
      = .ok ⟨8, 16, (1, 4), MIN_PI_VALUES⟩ := by
    rw [List.length_replicate]
    rfl
  have hvi0 : calculate_vi_values
      (longest_run_counts (List.replicate 128 '0') ⟨8, 16, (1, 4), MIN_PI_VALUES⟩)
      ((1:ℤ), (4:ℤ)) = [((1:ℤ), (16:ℤ)), (2, 0), (3, 0), (4, 0)] := by decide
  have hvi1 : calculate_vi_values
      (longest_run_counts (List.replicate 128 '1') ⟨8, 16, (1, 4), MIN_PI_VALUES⟩)
      ((1:ℤ), (4:ℤ)) = [((1:ℤ), (0:ℤ)), (2, 0), (3, 0), (4, 16)] := by decide
  have hchi0 : longest_run_chi_square_of (List.replicate 128 '0')
      ⟨8, 16, (1, 4), MIN_PI_VALUES⟩ = 3216/55 := by
    show longest_run_chi_square
      (calculate_vi_values
        (longest_run_counts (List.replicate 128 '0')
          ⟨8, 16, (1, 4), MIN_PI_VALUES⟩)
        ((1:ℤ), (4:ℤ)))
      16 MIN_PI_VALUES = 3216/55
    rw [hvi0]
    unfold longest_run_chi_square MIN_PI_VALUES
    simp only [List.zip_cons_cons, List.zip_nil_left, List.foldl_cons,
      List.foldl_nil]
    norm_num
  have hchi1 : longest_run_chi_square_of (List.replicate 128 '1')
      ⟨8, 16, (1, 4), MIN_PI_VALUES⟩ = 208/3 := by
    show longest_run_chi_square
      (calculate_vi_values
        (longest_run_counts (List.replicate 128 '1')
          ⟨8, 16, (1, 4), MIN_PI_VALUES⟩)
        ((1:ℤ), (4:ℤ)))
      16 MIN_PI_VALUES = 208/3
    rw [hvi1]
    unfold longest_run_chi_square MIN_PI_VALUES
    simp only [List.zip_cons_cons, List.zip_nil_left, List.foldl_cons,
      List.foldl_nil]
    norm_num
  refine ⟨by norm_num, ?_, ?_, by norm_num⟩
  · rw [longest_run_ok ((fun _ x => x) : ℚ → ℚ → ℚ) hv0 hcfg0]
    show Except.ok ((longest_run_chi_square_of (List.replicate 128 '0')
      ⟨8, 16, (1, 4), MIN_PI_VALUES⟩ : ℚ) * (1/2)) = _
    rw [hchi0]
    norm_num
  · rw [longest_run_ok ((fun _ x => x) : ℚ → ℚ → ℚ) hv1 hcfg1]
    show Except.ok ((longest_run_chi_square_of (List.replicate 128 '1')
      ⟨8, 16, (1, 4), MIN_PI_VALUES⟩ : ℚ) * (1/2)) = _
    rw [hchi1]
    norm_num

end NistSuite
